import Mathlib

/-! KeyboardMouse: the remap engine of `src/main.cpp` and the sink of `src/Device.cpp`

A shallow embedding of the event loop of `_main`: the per-event state machine
(modifier key, movement keys, button-emulation keys) and the per-tick motion
integrator, together with the part of `Device` the loop writes to.

Conventions.
* `input_event.type` and `input_event.code` are `__u16`, modelled as `Nat`;
  `input_event.value` is `__s32`, modelled as `Int`.
* Time points of `std::chrono::system_clock` are counted in nanoseconds (`Int`).
* The float variables of the integrator are elements of an ordered field `K`
  with a floor function (exact arithmetic); the irrational constant
  `MOUSE_MOVE_DECAY` is an argument `decay` of the integrator.
* Values of C++ type `int` are integers without a bound: the deltas of the
  integrator are the truncations of the displacements, whatever their size.
* `Device.write` models a `::write` call that succeeds; a failing call throws and
  ends the process, so a run of the model is a run in which no write failed.
-/

namespace KeyboardMouse

/-! ## Constants of `linux/input-event-codes.h` used by the program -/

def EV_SYN : Nat := 0
def EV_KEY : Nat := 1
def EV_REL : Nat := 2

def EV_ABS : Nat := 3
def EV_MSC : Nat := 4
def EV_SW : Nat := 5
def EV_LED : Nat := 17
def EV_SND : Nat := 18
def EV_FF : Nat := 21
def EV_CNT : Nat := 32

def REL_X : Nat := 0
def REL_Y : Nat := 1

def KEY_CNT : Nat := 768

def BUS_USB : Nat := 3

def KEY_TAB : Nat := 15
def KEY_E : Nat := 18
def KEY_T : Nat := 20
def KEY_ENTER : Nat := 28
def KEY_S : Nat := 31
def KEY_D : Nat := 32
def KEY_H : Nat := 35
def KEY_LEFTSHIFT : Nat := 42
def KEY_C : Nat := 46
def KEY_N : Nat := 49
def KEY_COMMA : Nat := 51
def KEY_SPACE : Nat := 57
def KEY_UP : Nat := 103
def KEY_LEFT : Nat := 105
def KEY_RIGHT : Nat := 106
def KEY_DOWN : Nat := 108

def BTN_LEFT : Nat := 272
def BTN_RIGHT : Nat := 273
def BTN_MIDDLE : Nat := 274

/-! ## Constants of `linux/uinput.h` used by the program -/

def UINPUT_MAX_NAME_SIZE : Nat := 80

def UI_SET_EVBIT : Int := 1074025828
def UI_SET_KEYBIT : Int := 1074025829
def UI_SET_RELBIT : Int := 1074025830
def UI_SET_ABSBIT : Int := 1074025831
def UI_SET_MSCBIT : Int := 1074025832
def UI_SET_LEDBIT : Int := 1074025833
def UI_SET_SNDBIT : Int := 1074025834
def UI_SET_FFBIT : Int := 1074025835
def UI_SET_SWBIT : Int := 1074025837

/-! ## Events and the sink -/

/-- The `struct timeval` stamp of an event. -/
structure timeval where
  tv_sec : Int
  tv_usec : Int
deriving DecidableEq, Repr

/-- The `struct input_event` record read from the source and written to the sink. -/
structure input_event where
  time : timeval
  type : Nat
  code : Nat
  value : Int
deriving DecidableEq, Repr

/-- The part of `keyboard_mouse::Device` used by the loop on the sink: the
member `_last_event`, and the sequence of events handed to the kernel so far
(oldest first). -/
structure Device where
  written : List input_event
  _last_event : input_event
deriving DecidableEq, Repr

/-- `Device::write` on its success path: the event is written and remembered. -/
def Device.write (d : Device) (event : input_event) : Device :=
  { written := d.written ++ [event], _last_event := event }

/-- `Device::send_rel` on its success path: a relative-motion event followed by
a synchronisation event, each copied from `_last_event` before its fields are
set. -/
def Device.send_rel (d : Device) (code : Nat) (value : Int) : Device :=
  let rel_event : input_event :=
    { d._last_event with type := EV_REL, code := code, value := value }
  let d1 := d.write rel_event
  let syn_event : input_event :=
    { d1._last_event with type := EV_SYN, code := 0, value := 0 }
  d1.write syn_event

/-- `Device::write` with the outcome of the `::write` call: when the call does
not write the whole event, the method throws before `_last_event` is set. -/
def Device.try_write (d : Device) (event : input_event) (os_ok : Bool) :
    Device × Option String :=
  if os_ok then (d.write event, none) else (d, some "Could not write")

/-- `Device::send_rel` with the outcomes of its two `::write` calls. The
parameter `code` is an `int` stored in the `__u16` field of the event. -/
def Device.try_send_rel (d : Device) (code value : Int) (os_ok1 os_ok2 : Bool) :
    Device × Option String :=
  let rel_event : input_event :=
    { d._last_event with type := EV_REL, code := (code % 65536).toNat, value := value }
  match d.try_write rel_event os_ok1 with
  | (d1, some err) => (d1, some err)
  | (d1, none) =>
    let syn_event : input_event :=
      { d1._last_event with type := EV_SYN, code := 0, value := 0 }
    d1.try_write syn_event os_ok2

/-! ## `std::map` with `int` keys, as an association list -/

/-- `std::map::find`: the value stored under `k`, if there is one. -/
def mapFind {β : Type} : List (Nat × β) → Nat → Option β
  | [], _ => none
  | (k', v) :: m, k => if k' = k then some v else mapFind m k

/-- Assignment through the iterator returned by `find`: `it->second = v`.
The key set is left as it is; an absent key changes nothing. -/
def mapAssign {β : Type} : List (Nat × β) → Nat → β → List (Nat × β)
  | [], _, _ => []
  | (k', v') :: m, k, v => if k' = k then (k', v) :: m else (k', v') :: mapAssign m k v

/-- `m[k] = v` with `operator[]`: replaces the value of an existing key, or
inserts the key at its place in ascending key order. -/
def mapSet {β : Type} : List (Nat × β) → Nat → β → List (Nat × β)
  | [], k, v => [(k, v)]
  | (k', v') :: m, k, v =>
    if k < k' then (k, v) :: (k', v') :: m
    else if k = k' then (k', v) :: m
    else (k', v') :: mapSet m k v

/-- A `std::map` built from an initializer list. -/
def mapOfList {β : Type} (l : List (Nat × β)) : List (Nat × β) :=
  l.foldl (fun m p => mapSet m p.1 p.2) []

/-- The keys of a map, in iteration order. -/
def mapKeys {β : Type} (m : List (Nat × β)) : List Nat := m.map Prod.fst

/-! ## Configuration of `main.cpp` -/

def KEY_RELEASE : Int := 0
def KEY_PRESS : Int := 1
def KEY_HOLD : Int := 2

/-- The key to hold to enable mouse control. -/
def MOUSE_MODIFIER_KEY : Nat := KEY_TAB

/-- Maps each movement key to its acceleration vector. -/
def MOUSE_MOVE_KEYS : List (Nat × (Int × Int)) :=
  mapOfList
    [ (KEY_S, (-12000, 0)),
      (KEY_T, (12000, 0)),
      (KEY_N, (0, 12000)),
      (KEY_E, (0, -12000)),
      (KEY_C, (-7000, 0)),
      (KEY_D, (7000, 0)),
      (KEY_H, (0, 7000)),
      (KEY_COMMA, (0, -7000)),
      (KEY_LEFT, (-4000, 0)),
      (KEY_RIGHT, (4000, 0)),
      (KEY_DOWN, (0, 4000)),
      (KEY_UP, (0, -4000)) ]

/-- Maps each button-emulation key to a mouse button. -/
def MOUSE_BUTTON_KEYS : List (Nat × Nat) :=
  mapOfList
    [ (KEY_ENTER, BTN_LEFT),
      (KEY_LEFTSHIFT, BTN_MIDDLE),
      (KEY_SPACE, BTN_RIGHT) ]

/-- `std::chrono::milliseconds(300)` in nanoseconds. -/
def MOUSE_MODIFIER_VOID_DURATION : Int := 300 * 1000000

/-- Polls per second. -/
def POLL_RATE : Nat := 50

/-- The time between polls in nanoseconds: `seconds(1) / POLL_RATE` cast to
`std::chrono::nanoseconds`, which is 20 ms. -/
def POLL_INTERVAL : Int := 20 * 1000000

section Physics

variable {K : Type} [LinearOrderedField K] [FloorRing K]

/-- The tick duration `POLL_INTERVAL_FLOAT.count()` in seconds. -/
def DT : K := 1 / (POLL_RATE : K)

def MOUSE_MOVE_DRAG : K := 2000

/-- The function `_apply_drag`. -/
def _apply_drag (v dv : K) : K :=
  if v > 0 then max (v - dv) 0 else min (v + dv) 0

/-- Conversion of a float to `int`: the fractional part is discarded. -/
def truncToInt (x : K) : Int :=
  if 0 ≤ x then ⌊x⌋ else ⌈x⌉

/-- The body of the loop "handle mouse movement" for one entry of
`move_keys_held`; `MOUSE_MOVE_KEYS.at` throws when the key is absent. -/
def accelStep (a : K × K) (key_held : Nat × Bool) : Except String (K × K) :=
  if key_held.2 then
    match mapFind MOUSE_MOVE_KEYS key_held.1 with
    | some da => .ok (a.1 + (da.1 : K) * DT, a.2 + (da.2 : K) * DT)
    | none => .error "map::at"
  else .ok a

/-- The acceleration `(ax, ay)` of a tick: the loop over `move_keys_held`,
starting from `(0, 0)`. -/
def acceleration : List (Nat × Bool) → K × K → Except String (K × K)
  | [], a => .ok a
  | key_held :: rest, a =>
    match accelStep a key_held with
    | .ok a1 => acceleration rest a1
    | .error err => .error err

/-- The velocity of one axis after a tick: add the acceleration, apply drag,
decay. -/
def nextVelocity (decay v a : K) : K :=
  _apply_drag (v + a) (MOUSE_MOVE_DRAG * DT) * decay

/-- The movement of one axis for a frame: the displacement `v * DT + p` is
truncated to the emitted delta, the remainder is the new fractional position. -/
def carry (v p : K) : Int × K :=
  let dx := v * DT + p
  let rel : Int := truncToInt dx
  (rel, dx - (rel : K))

end Physics

/-! ## The loop state -/

/-- The local variables of `_main` that live across loop iterations, with the
sink `output`. -/
structure Loop (K : Type) where
  output : Device
  modifier_held : Bool
  last_modifier_pressed : Int
  mouse_used : Bool
  move_keys_held : List (Nat × Bool)
  vx : K
  vy : K
  px : K
  py : K
  t : Int

/-- The map `move_keys_held` as built before the loop: every key of
`MOUSE_MOVE_KEYS`, not held. -/
def move_keys_held_init : List (Nat × Bool) :=
  MOUSE_MOVE_KEYS.foldl (fun m it => mapSet m it.1 false) []

/-- The loop state on entry to the main loop. The sink, the time `now` at which
`last_modifier_pressed` was initialised and the start time `t0` of the loop
are given by the environment. -/
def Loop.init {K : Type} [Zero K] (output : Device) (now t0 : Int) : Loop K :=
  { output := output
    modifier_held := false
    last_modifier_pressed := now
    mouse_used := false
    move_keys_held := move_keys_held_init
    vx := 0
    vy := 0
    px := 0
    py := 0
    t := t0 }

/-! ## Per-event processing (the body of the inner `for` loop) -/

/-- The block "handle mouse move key logic". -/
def handleMoveKey {K : Type} (s : Loop K) (event : input_event) : Loop K :=
  match mapFind s.move_keys_held event.code with
  | some _ =>
    if event.value = KEY_PRESS then
      { s with mouse_used := true
               move_keys_held := mapAssign s.move_keys_held event.code true }
    else if event.value = KEY_RELEASE then
      { s with move_keys_held := mapAssign s.move_keys_held event.code false }
    else s
  | none => s

/-- The block "handle mouse button key logic". -/
def handleButtonKey {K : Type} (s : Loop K) (event : input_event) : Loop K :=
  match mapFind MOUSE_BUTTON_KEYS event.code with
  | some button =>
    let s1 := if event.value = KEY_PRESS then { s with mouse_used := true } else s
    let click_event : input_event := { event with code := button }
    { s1 with output := s1.output.write click_event }
  | none => s

/-- The block "handle modifier key logic". -/
def handleModifier {K : Type} (s : Loop K) (event : input_event) : Loop K :=
  if event.value = KEY_PRESS then
    { s with modifier_held := true
             last_modifier_pressed := s.t
             mouse_used := false }
  else if event.value = KEY_RELEASE then
    let s1 := { s with modifier_held := false }
    if s1.mouse_used then
      { s1 with move_keys_held := s1.move_keys_held.map (fun it => (it.1, false)) }
    else if s1.t - s1.last_modifier_pressed < MOUSE_MODIFIER_VOID_DURATION then
      let press_event : input_event := { event with value := KEY_PRESS }
      { s1 with output := (s1.output.write press_event).write event }
    else s1
  else s

/-- One iteration of the inner loop over the events read in a tick. -/
def processEvent {K : Type} (s : Loop K) (event : input_event) : Loop K :=
  if event.type ≠ EV_KEY then
    { s with output := s.output.write event }
  else if event.code = MOUSE_MODIFIER_KEY then
    handleModifier s event
  else if !s.modifier_held then
    { s with output := s.output.write event }
  else
    handleButtonKey (handleMoveKey s event) event

/-! ## Per-tick motion and the main loop -/

section Ticks

variable {K : Type} [LinearOrderedField K] [FloorRing K]

/-- The part of the loop body after the events: acceleration, velocity, drag,
decay, displacement, truncation and the relative-motion writes. -/
def integrate (decay : K) (s : Loop K) : Except String (Loop K) :=
  match acceleration s.move_keys_held ((0, 0) : K × K) with
  | .error err => .error err
  | .ok a =>
    let vx := nextVelocity decay s.vx a.1
    let vy := nextVelocity decay s.vy a.2
    let mx := carry vx s.px
    let my := carry vy s.py
    let out1 := if mx.1 ≠ 0 then s.output.send_rel REL_X mx.1 else s.output
    let out2 := if my.1 ≠ 0 then out1.send_rel REL_Y my.1 else out1
    .ok { s with output := out2, vx := vx, vy := vy, px := mx.2, py := my.2 }

/-- The end of a loop iteration: the integrator, then `t += POLL_INTERVAL`. -/
def endTick (decay : K) (s : Loop K) : Except String (Loop K) :=
  match integrate decay s with
  | .ok s1 => .ok { s1 with t := s1.t + POLL_INTERVAL }
  | .error err => .error err

/-- One iteration of the main loop on the batch of events returned by
`input.read()`. -/
def tick (decay : K) (s : Loop K) (events : List input_event) : Except String (Loop K) :=
  endTick decay (events.foldl processEvent s)

/-- The first iterations of the main loop, one per batch of events read. -/
def mainLoop (decay : K) : Loop K → List (List input_event) → Except String (Loop K)
  | s, [] => .ok s
  | s, events :: rest =>
    match tick decay s events with
    | .ok s1 => mainLoop decay s1 rest
    | .error err => .error err

end Ticks

/-! ## Quantities of the motion of a single key -/

section SingleKey

variable {K : Type} [LinearOrderedField K] [FloorRing K]

/-- The speed at which acceleration, drag and decay balance, for a per-tick
acceleration `acc` on one axis: the fixed point of `nextVelocity`. -/
def terminalSpeed (decay acc : K) : K :=
  decay * (|acc| - MOUSE_MOVE_DRAG * DT) / (1 - decay)

/-- A number of ticks that brings any speed below the terminal speed of the
per-tick acceleration `acc` to rest once the key is released. -/
def stopTicks (decay acc : K) : Nat :=
  Nat.ceil (terminalSpeed decay acc / (MOUSE_MOVE_DRAG * DT))

/-- The bound for a key with acceleration vector `da`. -/
def stopBound (decay : K) (da : Int × Int) : Nat :=
  max (stopTicks decay ((da.1 : K) * DT)) (stopTicks decay ((da.2 : K) * DT))

/-- The magnitude of the velocity on the axis along which the key with
acceleration vector `da` accelerates. -/
def axisSpeed (da : Int × Int) (s : Loop K) : K :=
  if da.1 ≠ 0 then |s.vx| else |s.vy|

end SingleKey

/-! ## The input stream as one sequence -/

/-- What the loop does next: process one event, or finish the iteration. -/
inductive Step where
  | event (e : input_event)
  | endOfTick
deriving DecidableEq, Repr

section Steps

variable {K : Type} [LinearOrderedField K] [FloorRing K]

/-- The effect of one step on the loop state. -/
def step (decay : K) (s : Loop K) : Step → Except String (Loop K)
  | .event e => .ok (processEvent s e)
  | .endOfTick => endTick decay s

/-- The effect of a sequence of steps. -/
def steps (decay : K) : Loop K → List Step → Except String (Loop K)
  | s, [] => .ok s
  | s, x :: rest =>
    match step decay s x with
    | .ok s1 => steps decay s1 rest
    | .error err => .error err

end Steps

/-- The steps of one loop iteration: its events, then the end of the tick. -/
def batchSteps (events : List input_event) : List Step :=
  events.map Step.event ++ [Step.endOfTick]

/-- The steps of a run of the loop over the given batches. -/
def trace : List (List input_event) → List Step
  | [] => []
  | events :: rest => batchSteps events ++ trace rest

/-- The number of tick boundaries in a sequence of steps. -/
def tickCount : List Step → Nat
  | [] => 0
  | .event _ :: rest => tickCount rest
  | .endOfTick :: rest => tickCount rest + 1

/-- The events of a sequence of steps, in order. -/
def eventsOf : List Step → List input_event
  | [] => []
  | .event e :: rest => e :: eventsOf rest
  | .endOfTick :: rest => eventsOf rest

/-- The key set of `move_keys_held` is the key set of `MOUSE_MOVE_KEYS`. -/
def WellFormed {K : Type} (s : Loop K) : Prop :=
  mapKeys s.move_keys_held = mapKeys MOUSE_MOVE_KEYS

instance {K : Type} (s : Loop K) : Decidable (WellFormed s) := by
  unfold WellFormed; infer_instance

/-- The code is a key of `MOUSE_MOVE_KEYS`. -/
def isMoveKey (code : Nat) : Bool := (mapFind MOUSE_MOVE_KEYS code).isSome

/-- The code is a key of `MOUSE_BUTTON_KEYS`. -/
def isButtonKey (code : Nat) : Bool := (mapFind MOUSE_BUTTON_KEYS code).isSome

/-- The event is an EV_KEY event of a movement key or of a button-emulation key. -/
def isMouseKeyEvent (e : input_event) : Bool :=
  e.type == EV_KEY && (isMoveKey e.code || isButtonKey e.code)

/-- The event is an EV_KEY event of the modifier key with the given value. -/
def isModifierEvent (e : input_event) (value : Int) : Bool :=
  e.type == EV_KEY && e.code == MOUSE_MODIFIER_KEY && e.value == value

/-- Every event of every batch is an EV_KEY event of the key `k`. -/
def OnlyKey (k : Nat) (batches : List (List input_event)) : Prop :=
  ∀ b ∈ batches, ∀ e ∈ b, e.type = EV_KEY ∧ e.code = k

/-- Every event of every batch is an EV_KEY event of the key `k` and not a press. -/
def OnlyKeyNoPress (k : Nat) (batches : List (List input_event)) : Prop :=
  ∀ b ∈ batches, ∀ e ∈ b, e.type = EV_KEY ∧ e.code = k ∧ e.value ≠ KEY_PRESS

instance (k : Nat) (batches : List (List input_event)) : Decidable (OnlyKey k batches) := by
  unfold OnlyKey; infer_instance

instance (k : Nat) (batches : List (List input_event)) :
    Decidable (OnlyKeyNoPress k batches) := by
  unfold OnlyKeyNoPress; infer_instance

/-- Mouse mode at rest: the modifier is held, no movement key is flagged as
held and the velocity is zero. -/
def AtRest {K : Type} [Zero K] (s : Loop K) : Prop :=
  WellFormed s ∧ s.modifier_held = true ∧ (∀ it ∈ s.move_keys_held, it.2 = false) ∧
  s.vx = 0 ∧ s.vy = 0

/-- In mouse mode with at most the key `k` flagged as held. -/
def OthersIdle {K : Type} (k : Nat) (s : Loop K) : Prop :=
  WellFormed s ∧ s.modifier_held = true ∧ ∀ it ∈ s.move_keys_held, it.1 ≠ k → it.2 = false

/-- The velocity `v` of an axis with per-tick acceleration `acc`: zero on an
axis the key does not accelerate, else in the direction of `acc` and below the
terminal speed. -/
def AxisInv {K : Type} [LinearOrderedField K] (decay acc v : K) : Prop :=
  (acc = 0 ∧ v = 0) ∨
  (MOUSE_MOVE_DRAG * DT < |acc| ∧ 0 ≤ v * acc ∧ |v| < terminalSpeed decay acc)

/-- The states of a run from rest in which only the key `k` with acceleration
vector `da` is used. -/
def SingleKeyInv {K : Type} [LinearOrderedField K] (decay : K) (k : Nat) (da : Int × Int)
    (s : Loop K) : Prop :=
  OthersIdle k s ∧ AxisInv decay ((da.1 : K) * DT) s.vx ∧ AxisInv decay ((da.2 : K) * DT) s.vy

/-! ## Properties of whole runs -/

/-- The event is an EV_KEY event with the code of the modifier key. -/
def isModifierKey (e : input_event) : Bool :=
  e.type == EV_KEY && e.code == MOUSE_MODIFIER_KEY

/-- In the sequence of events, each EV_KEY event of the modifier key is
either a press directly followed by a release of the same time, or that
release: no press without its release, no release without its press, no
other value. -/
inductive ModifierPaired : List input_event → Prop where
  | nil : ModifierPaired []
  | other (e : input_event) (rest : List input_event) :
      isModifierKey e = false → ModifierPaired rest → ModifierPaired (e :: rest)
  | pair (press release : input_event) (rest : List input_event) :
      isModifierKey press = true → press.value = KEY_PRESS →
      isModifierKey release = true → release.value = KEY_RELEASE →
      press.time = release.time → ModifierPaired rest →
      ModifierPaired (press :: release :: rest)

/-- Some movement key is flagged as held. -/
def AnyHeld (m : List (Nat × Bool)) : Prop := ∃ it ∈ m, it.2 = true

/-- A movement key is flagged as held only in mouse mode after mouse use. -/
def HeldOnlyInMouseMode {K : Type} (s : Loop K) : Prop :=
  AnyHeld s.move_keys_held → s.modifier_held = true ∧ s.mouse_used = true

/-- Along the run of the steps from the state `s`, a modifier press is
processed only in states in which `modifier_held` is false. -/
def PressOnlyWhenReleased {K : Type} [LinearOrderedField K] [FloorRing K] (decay : K) :
    Loop K → List Step → Prop
  | _, [] => True
  | s, .event e :: rest =>
    (isModifierEvent e KEY_PRESS = true → s.modifier_held = false) ∧
      PressOnlyWhenReleased decay (processEvent s e) rest
  | s, .endOfTick :: rest =>
    match endTick decay s with
    | .ok s1 => PressOnlyWhenReleased decay s1 rest
    | .error _ => True

/-- The sum over the keys of the positive parts of the component `sel` of
their acceleration vectors: how far that component of the acceleration can
reach when keys are held. -/
def reachOf (sel : Int × Int → Int) : List Nat → Int
  | [] => 0
  | k :: ks =>
    (match mapFind MOUSE_MOVE_KEYS k with
     | some da => max (sel da) 0
     | none => 0) + reachOf sel ks

section Limits

variable {K : Type} [LinearOrderedField K]

/-- The largest acceleration per tick on an axis: the fast, medium and slow
key of one direction together. -/
def maxAcceleration : K := (12000 + 7000 + 4000) * DT

/-- The bound of the speed: the fixed point of a tick at the largest
acceleration. -/
def speedLimit (decay : K) : K :=
  decay * (maxAcceleration - MOUSE_MOVE_DRAG * DT) / (1 - decay)

/-- The velocity is within the speed limit and the fractional position is a
fraction, over a well-formed state. -/
def WithinLimits (decay : K) (s : Loop K) : Prop :=
  WellFormed s ∧ |s.vx| ≤ speedLimit decay ∧ |s.vy| ≤ speedLimit decay ∧
  |s.px| < 1 ∧ |s.py| < 1

end Limits

/-- The least and the greatest value of a 32-bit `int`. -/
def INT_MIN : Int := -2147483648
def INT_MAX : Int := 2147483647

/-! ## Capability negotiation and device creation (`Device.cpp`, `UIDevice.cpp`) -/

/-- The kernel record `struct input_id`. -/
structure input_id where
  bustype : Nat
  vendor : Nat
  product : Nat
  version : Nat
deriving DecidableEq, Repr

/-- The kernel record `struct uinput_setup`; `name` is the string held by the
array of `UINPUT_MAX_NAME_SIZE` characters, without its terminator. -/
structure uinput_setup where
  id : input_id
  name : List Char
  ff_effects_max : Nat
deriving DecidableEq, Repr

/-- An `ioctl` on the sink: a set-bit request with its integer argument,
`UI_DEV_SETUP` with its record, or `UI_DEV_CREATE`. -/
inductive SinkIoctl where
  | setBit (request : Int) (arg : Nat)
  | devSetup (setup_data : uinput_setup)
  | devCreate
deriving DecidableEq, Repr

/-- What the source answers to `EVIOCGBIT`: the bytes of the buffer after the
call (by index), or nothing when the call fails. `ev_bitset` is the answer for
the event types, `key_bitset ev` the answer for the codes of type `ev`. -/
structure Source where
  ev_bitset : Option (Nat → Nat)
  key_bitset : Nat → Option (Nat → Nat)

/-- The course of the sink preparation: the ioctls the sink accepted, the
types whose bits were asked of the source (0 for the event types), both in
order, and the message of the error thrown, if any. -/
structure Setup where
  issued : List SinkIoctl
  queried : List Nat
  error : Option String
deriving DecidableEq, Repr

/-- Nothing done yet. -/
def Setup.start : Setup := { issued := [], queried := [], error := none }

/-- The macro `CHAR_BIT_SZ`. -/
def CHAR_BIT_SZ : Nat := 8

/-- The test `(bitset[i / CHAR_BIT_SZ] >> (i % CHAR_BIT_SZ)) & 0x1` of the two
loops, true when the result is not 0. -/
def getBit (bitset : Nat → Nat) (i : Nat) : Bool :=
  (bitset (i / CHAR_BIT_SZ) >>> (i % CHAR_BIT_SZ)) &&& 1 != 0

/-- The function `Device::_convert_to_uinput_ev`. -/
def Device._convert_to_uinput_ev (kernel_ev : Nat) : Int :=
  if kernel_ev = EV_KEY then UI_SET_KEYBIT
  else if kernel_ev = EV_REL then UI_SET_RELBIT
  else if kernel_ev = EV_ABS then UI_SET_ABSBIT
  else if kernel_ev = EV_MSC then UI_SET_MSCBIT
  else if kernel_ev = EV_LED then UI_SET_LEDBIT
  else if kernel_ev = EV_SND then UI_SET_SNDBIT
  else if kernel_ev = EV_FF then UI_SET_FFBIT
  else if kernel_ev = EV_SW then UI_SET_SWBIT
  else -1

/-- The inner loop of `copy_setup_from` over the codes `key` still to visit. -/
def setKeyBits (sink_ok : SinkIoctl → Bool) (ui_ev : Int) (ev : Nat) (key_bitset : Nat → Nat) :
    List Nat → Setup → Setup
  | [], st => st
  | key :: rest, st =>
    if getBit key_bitset key = false then setKeyBits sink_ok ui_ev ev key_bitset rest st
    else if sink_ok (.setBit ui_ev key) = false then
      { st with error := some ("Could not set key bit " ++ toString key ++
          " for event " ++ toString ev) }
    else
      setKeyBits sink_ok ui_ev ev key_bitset rest
        { st with issued := st.issued ++ [.setBit ui_ev key] }

/-- The outer loop of `copy_setup_from` over the event types `ev` still to visit. -/
def setEventBits (source : Source) (sink_ok : SinkIoctl → Bool) (ev_bitset : Nat → Nat) :
    List Nat → Setup → Setup
  | [], st => st
  | ev :: rest, st =>
    if getBit ev_bitset ev = false then setEventBits source sink_ok ev_bitset rest st
    else if sink_ok (.setBit UI_SET_EVBIT ev) = false then
      { st with error := some ("Could not set event bit " ++ toString ev) }
    else
      let st1 := { st with issued := st.issued ++ [.setBit UI_SET_EVBIT ev] }
      let ui_ev := Device._convert_to_uinput_ev ev
      if ui_ev = -1 then setEventBits source sink_ok ev_bitset rest st1
      else
        let st2 := { st1 with queried := st1.queried ++ [ev] }
        match source.key_bitset ev with
        | none =>
          { st2 with error := some ("Could not get support codes for event " ++ toString ev) }
        | some key_bitset =>
          let st3 := setKeyBits sink_ok ui_ev ev key_bitset (List.range KEY_CNT) st2
          if st3.error.isSome then st3
          else setEventBits source sink_ok ev_bitset rest st3

/-- The method `Device::copy_setup_from`, called on the sink with the source. -/
def Device.copy_setup_from (source : Source) (sink_ok : SinkIoctl → Bool) (st : Setup) : Setup :=
  let st1 := { st with queried := st.queried ++ [0] }
  match source.ev_bitset with
  | none => { st1 with error := some "Could not get supported events" }
  | some ev_bitset => setEventBits source sink_ok ev_bitset (List.range EV_CNT) st1

/-- One statement `if (::ioctl(_fd, request, arg) < 0) _throw(message)`; nothing
is done once an error was thrown. -/
def Setup.ioctl (st : Setup) (sink_ok : SinkIoctl → Bool) (call : SinkIoctl)
    (message : String) : Setup :=
  if st.error.isSome then st
  else if sink_ok call = false then { st with error := some message }
  else { st with issued := st.issued ++ [call] }

/-- The call `::strcpy(dest, src.c_str())` into an array of `size` characters
filled with zeros: the characters before the first zero character. When they
and the terminator do not fit, the copy writes outside the array and the
behaviour is undefined: no result. -/
def strcpy (size : Nat) (src : List Char) : Option (List Char) :=
  let c_str := src.takeWhile (fun c => c != Char.ofNat 0)
  if c_str.length + 1 ≤ size then some c_str else none

/-- The record `setup_data` that the `UIDevice` constructor fills in. -/
def UIDevice.setup_data (name : List Char) : Option uinput_setup :=
  match strcpy UINPUT_MAX_NAME_SIZE name with
  | none => none
  | some buffer =>
    some { id := { bustype := BUS_USB, vendor := 0xcccc, product := 0xcccc, version := 0 }
           name := buffer
           ff_effects_max := 0 }

/-- The constructor `UIDevice::UIDevice`; no result when its behaviour is
undefined. -/
def UIDevice.create (sink_ok : SinkIoctl → Bool) (name : List Char) (st : Setup) :
    Option Setup :=
  match UIDevice.setup_data name with
  | none => none
  | some setup_data =>
    some ((st.ioctl sink_ok (.devSetup setup_data) "Could not set up UI device").ioctl
      sink_ok .devCreate "Could not create UI device")

/-- The method `Device::set_up_mouse`. -/
def Device.set_up_mouse (sink_ok : SinkIoctl → Bool) (st : Setup) : Option Setup :=
  let st1 := st.ioctl sink_ok (.setBit UI_SET_EVBIT EV_KEY)
    ("Could not set event bit " ++ toString EV_KEY)
  let st2 := st1.ioctl sink_ok (.setBit UI_SET_KEYBIT BTN_LEFT)
    ("Could not set key bit " ++ toString BTN_LEFT ++ " for event " ++ toString EV_KEY)
  let st3 := st2.ioctl sink_ok (.setBit UI_SET_KEYBIT BTN_MIDDLE)
    ("Could not set key bit " ++ toString BTN_MIDDLE ++ " for event " ++ toString EV_KEY)
  let st4 := st3.ioctl sink_ok (.setBit UI_SET_KEYBIT BTN_RIGHT)
    ("Could not set key bit " ++ toString BTN_RIGHT ++ " for event " ++ toString EV_KEY)
  let st5 := st4.ioctl sink_ok (.setBit UI_SET_EVBIT EV_REL)
    ("Could not set event bit " ++ toString EV_REL)
  let st6 := st5.ioctl sink_ok (.setBit UI_SET_RELBIT REL_X)
    ("Could not set rel bit " ++ toString REL_X ++ " for event " ++ toString EV_REL)
  let st7 := st6.ioctl sink_ok (.setBit UI_SET_RELBIT REL_Y)
    ("Could not set rel bit " ++ toString REL_Y ++ " for event " ++ toString EV_REL)
  if st7.error.isSome then some st7
  else UIDevice.create sink_ok "Keyboard Mouse".toList st7

/-- The sink preparation of `_main`: `output.copy_setup_from(input)`, then
`output.set_up_mouse()` unless an error was thrown. -/
def prepareSink (source : Source) (sink_ok : SinkIoctl → Bool) : Option Setup :=
  let st := Device.copy_setup_from source sink_ok Setup.start
  if st.error.isSome then some st else Device.set_up_mouse sink_ok st

/-! ### The declarations as the specification words them -/

/-- The event types with a set-code-bit operation, and that operation. -/
def codeFamilies : List (Nat × Int) :=
  [ (EV_KEY, UI_SET_KEYBIT), (EV_REL, UI_SET_RELBIT), (EV_ABS, UI_SET_ABSBIT),
    (EV_MSC, UI_SET_MSCBIT), (EV_LED, UI_SET_LEDBIT), (EV_SND, UI_SET_SNDBIT),
    (EV_FF, UI_SET_FFBIT), (EV_SW, UI_SET_SWBIT) ]

/-- Bit `i` of a bit-vector kept in bytes of eight bits is set, as the
specification words a capability bit: binary digit `i % 8` of byte `i / 8` is
a one. Stated with the digits of the number, not with the shift and mask of
the loops. -/
def bitIsSet (bitset : Nat → Nat) (i : Nat) : Bool :=
  (bitset (i / 8)).testBit (i % 8)

/-- The declarations of the codes among `keys` whose bit is set, by the
operation `op`. -/
def codeDeclarations (op : Int) (key_bitset : Nat → Nat) (keys : List Nat) : List SinkIoctl :=
  (keys.filter (fun key => bitIsSet key_bitset key)).map (fun key => SinkIoctl.setBit op key)

/-- The declarations owed for the event type `ev`: none when its bit is clear,
else the type and, for a type of `codeFamilies`, each code with its bit set. -/
def typeDeclarations (E : Nat → Nat) (Kev : Nat → Nat → Nat) (ev : Nat) : List SinkIoctl :=
  if bitIsSet E ev then
    SinkIoctl.setBit UI_SET_EVBIT ev ::
      (match mapFind codeFamilies ev with
       | some op => codeDeclarations op (Kev ev) (List.range KEY_CNT)
       | none => [])
  else []

/-- The declarations owed for the event-type bits `E` and the code bits `Kev`. -/
def expectedDeclarations (E : Nat → Nat) (Kev : Nat → Nat → Nat) : List SinkIoctl :=
  (List.range EV_CNT).flatMap (typeDeclarations E Kev)

/-- The codes of the event type `ev` are to be asked of the source. -/
def codesQueried (E : Nat → Nat) (ev : Nat) : Bool :=
  bitIsSet E ev && (mapFind codeFamilies ev).isSome

/-- The queries owed: the event types, then the codes of each type of
`codeFamilies` with its bit set. -/
def expectedQueries (E : Nat → Nat) : List Nat :=
  0 :: (List.range EV_CNT).filter (codesQueried E)

/-- The declaration is of a type or code whose bit is set on the source. -/
def OnSource (E : Nat → Nat) (Kev : Nat → Nat → Nat) : SinkIoctl → Prop
  | .setBit request arg =>
    (request = UI_SET_EVBIT ∧ arg < EV_CNT ∧ bitIsSet E arg = true) ∨
    (∃ ev, ev < EV_CNT ∧ bitIsSet E ev = true ∧ mapFind codeFamilies ev = some request ∧
      arg < KEY_CNT ∧ bitIsSet (Kev ev) arg = true)
  | .devSetup _ => False
  | .devCreate => False

/-- The declarations that `set_up_mouse` adds for the emulated mouse. -/
def mouseDeclarations : List SinkIoctl :=
  [ .setBit UI_SET_EVBIT EV_KEY, .setBit UI_SET_KEYBIT BTN_LEFT,
    .setBit UI_SET_KEYBIT BTN_MIDDLE, .setBit UI_SET_KEYBIT BTN_RIGHT,
    .setBit UI_SET_EVBIT EV_REL, .setBit UI_SET_RELBIT REL_X, .setBit UI_SET_RELBIT REL_Y ]

/-! ## Sample data -/

/-- A sink that has written nothing yet. -/
def sampleSink : Device :=
  { written := [], _last_event := { time := { tv_sec := 0, tv_usec := 0 }, type := 0, code := 0, value := 0 } }

/-- An event of the given type, code and value stamped 7.5 s. -/
def sampleEvent (type code : Nat) (value : Int) : input_event :=
  { time := { tv_sec := 7, tv_usec := 500000 }, type := type, code := code, value := value }

/-- The event-type bytes of a keyboard: EV_SYN and EV_KEY. -/
def sampleTypes : Nat → Nat := fun i => if i = 0 then 3 else 0

/-- The code bytes of a keyboard: for EV_KEY the keys KEY_TAB (15) and KEY_T
(20), nothing for the other types. -/
def sampleCodes : Nat → Nat → Nat := fun ev i =>
  if ev = 1 then (if i = 1 then 128 else if i = 2 then 16 else 0) else 0

/-- A keyboard that answers every query. -/
def sampleSource : Source :=
  { ev_bitset := some sampleTypes, key_bitset := fun ev => some (sampleCodes ev) }

/-- The modifier pressed, KEY_ENTER pressed, the modifier released, KEY_ENTER
released: every press is followed by the release of its key. -/
def sampleClickAcrossRelease : List input_event :=
  [ sampleEvent EV_KEY KEY_TAB 1, sampleEvent EV_KEY KEY_ENTER 1,
    sampleEvent EV_KEY KEY_TAB 0, sampleEvent EV_KEY KEY_ENTER 0 ]

/-- The identity record of the device "Keyboard Mouse". -/
def keyboardMouseSetup : uinput_setup :=
  { id := { bustype := BUS_USB, vendor := 0xcccc, product := 0xcccc, version := 0 }
    name := "Keyboard Mouse".toList
    ff_effects_max := 0 }

/-- The state on entry to the loop, over the rationals. -/
def sampleStart : Loop ℚ := Loop.init sampleSink 0 0

/-- The entry state with the modifier held. -/
def sampleHeld : Loop ℚ := { sampleStart with modifier_held := true }

/-- A state in mouse mode: modifier held, KEY_T flagged as held. -/
def sampleMoving : Loop ℚ :=
  { sampleStart with
    modifier_held := true
    mouse_used := true
    move_keys_held := mapAssign move_keys_held_init KEY_T true }

/-! ## Facts about the map model -/

theorem mapFind_eq_none_iff {β : Type} (m : List (Nat × β)) (k : Nat) :
    mapFind m k = none ↔ k ∉ mapKeys m := by
  induction m with
  | nil => simp [mapFind, mapKeys]
  | cons p m ih =>
    obtain ⟨k', v⟩ := p
    by_cases h : k' = k
    · simp [mapFind, mapKeys, h]
    · have h' : ¬ k = k' := fun hk => h hk.symm
      simpa [mapFind, mapKeys, h, h'] using ih

theorem mapFind_isSome_iff {β : Type} (m : List (Nat × β)) (k : Nat) :
    (mapFind m k).isSome = true ↔ k ∈ mapKeys m := by
  rw [← not_iff_not, ← mapFind_eq_none_iff]
  cases mapFind m k <;> simp

theorem mapKeys_mapAssign {β : Type} (m : List (Nat × β)) (k : Nat) (v : β) :
    mapKeys (mapAssign m k v) = mapKeys m := by
  induction m with
  | nil => rfl
  | cons p m ih =>
    obtain ⟨k', v'⟩ := p
    by_cases h : k' = k
    · simp [mapAssign, mapKeys, h]
    · simpa [mapAssign, mapKeys, h] using ih

theorem mapFind_mapAssign_self {β : Type} (m : List (Nat × β)) (k : Nat) (v : β)
    (hk : k ∈ mapKeys m) : mapFind (mapAssign m k v) k = some v := by
  induction m with
  | nil => simp [mapKeys] at hk
  | cons p m ih =>
    obtain ⟨k', v'⟩ := p
    by_cases h : k' = k
    · simp [mapAssign, mapFind, h]
    · have hk' : k ∈ mapKeys m := by
        have h' : ¬ k = k' := fun hk => h hk.symm
        simpa [mapKeys, h'] using hk
      simpa [mapAssign, mapFind, h] using ih hk'

theorem mapFind_mapAssign_other {β : Type} (m : List (Nat × β)) (k k' : Nat) (v : β)
    (hne : k' ≠ k) : mapFind (mapAssign m k v) k' = mapFind m k' := by
  induction m with
  | nil => rfl
  | cons p m ih =>
    obtain ⟨k0, v0⟩ := p
    have hne' : ¬ k = k' := fun hk => hne hk.symm
    by_cases h : k0 = k
    · subst h
      simp [mapAssign, mapFind, hne']
    · by_cases h1 : k0 = k'
      · subst h1
        simp [mapAssign, mapFind, h]
      · simpa [mapAssign, mapFind, h, h1] using ih

theorem mapKeys_clear (m : List (Nat × Bool)) :
    mapKeys (m.map (fun it => (it.1, false))) = mapKeys m := by
  simp [mapKeys, List.map_map, Function.comp_def]

theorem mapFind_clear (m : List (Nat × Bool)) (k : Nat) (hk : k ∈ mapKeys m) :
    mapFind (m.map (fun it => (it.1, false))) k = some false := by
  induction m with
  | nil => simp [mapKeys] at hk
  | cons p m ih =>
    obtain ⟨k', v'⟩ := p
    by_cases h : k' = k
    · simp [mapFind, h]
    · have hk' : k ∈ mapKeys m := by
        have h' : ¬ k = k' := fun hk => h hk.symm
        simpa [mapKeys, h'] using hk
      simpa [mapFind, h] using ih hk'

/-- The twelve movement keys, in the iteration order of the map. -/
theorem mapKeys_MOUSE_MOVE_KEYS :
    mapKeys MOUSE_MOVE_KEYS = [18, 20, 31, 32, 35, 46, 49, 51, 103, 105, 106, 108] := by
  decide

theorem mapKeys_MOUSE_BUTTON_KEYS : mapKeys MOUSE_BUTTON_KEYS = [28, 42, 57] := by
  decide

/-- The movement-key map and the button-key map have no key in common. -/
theorem move_keys_not_button_keys (code : Nat) (h : isMoveKey code = true) :
    mapFind MOUSE_BUTTON_KEYS code = none := by
  rw [isMoveKey, mapFind_isSome_iff, mapKeys_MOUSE_MOVE_KEYS] at h
  rw [mapFind_eq_none_iff, mapKeys_MOUSE_BUTTON_KEYS]
  intro hb
  simp only [List.mem_cons, List.mem_singleton, List.not_mem_nil, or_false] at h hb
  omega

theorem move_keys_held_init_keys : mapKeys move_keys_held_init = mapKeys MOUSE_MOVE_KEYS := by
  decide

theorem wellFormed_init {K : Type} [Zero K] (output : Device) (now t0 : Int) :
    WellFormed (Loop.init output now t0 : Loop K) :=
  move_keys_held_init_keys

theorem mapFind_of_wellFormed {K : Type} (s : Loop K) (h : WellFormed s) (code : Nat) :
    (mapFind s.move_keys_held code).isSome = isMoveKey code := by
  have h1 := mapFind_isSome_iff s.move_keys_held code
  have h2 := mapFind_isSome_iff MOUSE_MOVE_KEYS code
  rw [h] at h1
  rw [isMoveKey, Bool.eq_iff_iff, h1, h2]

theorem handleMoveKey_output {K : Type} (s : Loop K) (e : input_event) :
    (handleMoveKey s e).output = s.output := by
  unfold handleMoveKey
  split
  · split
    · rfl
    · split <;> rfl
  · rfl

theorem isMoveKey_ne_modifier (code : Nat) (h : isMoveKey code = true) :
    code ≠ MOUSE_MODIFIER_KEY := by
  rw [isMoveKey, mapFind_isSome_iff, mapKeys_MOUSE_MOVE_KEYS] at h
  simp only [List.mem_cons, List.mem_singleton, List.not_mem_nil, or_false] at h
  simp only [MOUSE_MODIFIER_KEY, KEY_TAB]
  omega

theorem handleButtonKey_of_not_button {K : Type} (s : Loop K) (e : input_event)
    (h : mapFind MOUSE_BUTTON_KEYS e.code = none) : handleButtonKey s e = s := by
  simp [handleButtonKey, h]

theorem handleMoveKey_of_not_move {K : Type} (s : Loop K) (e : input_event)
    (h : mapFind s.move_keys_held e.code = none) : handleMoveKey s e = s := by
  simp [handleMoveKey, h]

/-- With the modifier held, an event of a movement key only goes through the
movement block. -/
theorem processEvent_move_key {K : Type} (s : Loop K) (e : input_event)
    (htype : e.type = EV_KEY) (hheld : s.modifier_held = true)
    (hkey : isMoveKey e.code = true) : processEvent s e = handleMoveKey s e := by
  have hmod := isMoveKey_ne_modifier e.code hkey
  have hbtn := move_keys_not_button_keys e.code hkey
  simp only [processEvent, htype, hmod, hheld, ne_eq, not_true_eq_false, if_false,
    Bool.not_true, Bool.false_eq_true]
  exact handleButtonKey_of_not_button _ _ hbtn

/-! ## What a step leaves unchanged -/

theorem handleMoveKey_frame {K : Type} (s : Loop K) (e : input_event) :
    mapKeys (handleMoveKey s e).move_keys_held = mapKeys s.move_keys_held ∧
    (handleMoveKey s e).t = s.t ∧
    (handleMoveKey s e).last_modifier_pressed = s.last_modifier_pressed ∧
    (handleMoveKey s e).modifier_held = s.modifier_held ∧
    (e.value ≠ KEY_PRESS → (handleMoveKey s e).mouse_used = s.mouse_used) := by
  unfold handleMoveKey
  split
  · split
    · exact ⟨mapKeys_mapAssign _ _ _, rfl, rfl, rfl, fun h => absurd (by assumption) h⟩
    · split
      · exact ⟨mapKeys_mapAssign _ _ _, rfl, rfl, rfl, fun _ => rfl⟩
      · exact ⟨rfl, rfl, rfl, rfl, fun _ => rfl⟩
  · exact ⟨rfl, rfl, rfl, rfl, fun _ => rfl⟩

theorem handleButtonKey_frame {K : Type} (s : Loop K) (e : input_event) :
    (handleButtonKey s e).move_keys_held = s.move_keys_held ∧
    (handleButtonKey s e).t = s.t ∧
    (handleButtonKey s e).last_modifier_pressed = s.last_modifier_pressed ∧
    (handleButtonKey s e).modifier_held = s.modifier_held ∧
    (e.value ≠ KEY_PRESS → (handleButtonKey s e).mouse_used = s.mouse_used) := by
  unfold handleButtonKey
  split
  · by_cases hv : e.value = KEY_PRESS
    · simp [hv]
    · simp [hv]
  · exact ⟨rfl, rfl, rfl, rfl, fun _ => rfl⟩

theorem handleModifier_frame {K : Type} (s : Loop K) (e : input_event) :
    mapKeys (handleModifier s e).move_keys_held = mapKeys s.move_keys_held ∧
    (handleModifier s e).t = s.t := by
  unfold handleModifier
  split
  · exact ⟨rfl, rfl⟩
  · split
    · dsimp only
      split
      · exact ⟨mapKeys_clear _, rfl⟩
      · split <;> exact ⟨rfl, rfl⟩
    · exact ⟨rfl, rfl⟩

/-- No event changes the key set of move_keys_held or the loop time. -/
theorem processEvent_frame {K : Type} (s : Loop K) (e : input_event) :
    mapKeys (processEvent s e).move_keys_held = mapKeys s.move_keys_held ∧
    (processEvent s e).t = s.t := by
  unfold processEvent
  split
  · exact ⟨rfl, rfl⟩
  · split
    · exact handleModifier_frame s e
    · split
      · exact ⟨rfl, rfl⟩
      · have h1 := handleMoveKey_frame s e
        have h2 := handleButtonKey_frame (handleMoveKey s e) e
        exact ⟨by rw [h2.1, h1.1], by rw [h2.2.1, h1.2.1]⟩

theorem processEvent_wellFormed {K : Type} (s : Loop K) (e : input_event)
    (h : WellFormed s) : WellFormed (processEvent s e) := by
  unfold WellFormed at *
  rw [(processEvent_frame s e).1, h]

/-- A modifier press only sets the three modifier variables. -/
theorem processEvent_modifier_press {K : Type} (s : Loop K) (e : input_event)
    (htype : e.type = EV_KEY) (hcode : e.code = MOUSE_MODIFIER_KEY)
    (hvalue : e.value = KEY_PRESS) :
    processEvent s e = { s with modifier_held := true
                                last_modifier_pressed := s.t
                                mouse_used := false } := by
  simp [processEvent, htype, hcode, handleModifier, hvalue]

/-- A modifier event that is neither a press nor a release changes nothing. -/
theorem processEvent_modifier_other {K : Type} (s : Loop K) (e : input_event)
    (htype : e.type = EV_KEY) (hcode : e.code = MOUSE_MODIFIER_KEY)
    (hp : e.value ≠ KEY_PRESS) (hr : e.value ≠ KEY_RELEASE) :
    processEvent s e = s := by
  simp [processEvent, htype, hcode, handleModifier, hp, hr]

/-- An event that is not a modifier event and not the press of a key leaves
the modifier variables as they are. -/
theorem processEvent_modifier_vars {K : Type} (s : Loop K) (e : input_event)
    (hmod : e.type = EV_KEY → e.code ≠ MOUSE_MODIFIER_KEY) :
    (processEvent s e).modifier_held = s.modifier_held ∧
    (processEvent s e).last_modifier_pressed = s.last_modifier_pressed ∧
    (e.value ≠ KEY_PRESS → (processEvent s e).mouse_used = s.mouse_used) := by
  unfold processEvent
  split
  · exact ⟨rfl, rfl, fun _ => rfl⟩
  · rename_i ht
    have ht' : e.type = EV_KEY := not_not.1 ht
    rw [if_neg (hmod ht')]
    split
    · exact ⟨rfl, rfl, fun _ => rfl⟩
    · have h1 := handleMoveKey_frame s e
      have h2 := handleButtonKey_frame (handleMoveKey s e) e
      exact ⟨by rw [h2.2.2.2.1, h1.2.2.2.1], by rw [h2.2.2.1, h1.2.2.1],
        fun hv => by rw [h2.2.2.2.2 hv, h1.2.2.2.2 hv]⟩

/-- With a well-formed state, an EV_KEY event whose code is no movement key, no
button-emulation key and not the modifier key leaves mouse_used as it is. -/
theorem processEvent_mouse_used_unmapped {K : Type} (s : Loop K) (e : input_event)
    (hwf : WellFormed s) (hmod : e.code ≠ MOUSE_MODIFIER_KEY)
    (hmove : isMoveKey e.code = false) (hbutton : isButtonKey e.code = false) :
    (processEvent s e).mouse_used = s.mouse_used := by
  have hsome := mapFind_of_wellFormed s hwf e.code
  rw [hmove] at hsome
  have h1 : mapFind s.move_keys_held e.code = none := by
    cases h : mapFind s.move_keys_held e.code with
    | none => rfl
    | some b => rw [h] at hsome; simp at hsome
  have h2 : mapFind MOUSE_BUTTON_KEYS e.code = none := by
    unfold isButtonKey at hbutton
    cases h : mapFind MOUSE_BUTTON_KEYS e.code with
    | none => rfl
    | some b => rw [h] at hbutton; simp at hbutton
  unfold processEvent
  split
  · rfl
  · split
    · rfl
    · rw [handleMoveKey_of_not_move s e h1, handleButtonKey_of_not_button s e h2]

section AccelFacts

variable {K : Type} [LinearOrderedField K]

theorem accelStep_ok (a : K × K) (p : Nat × Bool) (h : p.1 ∈ mapKeys MOUSE_MOVE_KEYS) :
    ∃ a1, accelStep a p = .ok a1 := by
  unfold accelStep
  split
  · have hs := (mapFind_isSome_iff MOUSE_MOVE_KEYS p.1).2 h
    obtain ⟨da, hda⟩ := Option.isSome_iff_exists.1 hs
    rw [hda]
    exact ⟨_, rfl⟩
  · exact ⟨_, rfl⟩

theorem acceleration_ok (m : List (Nat × Bool)) (a : K × K)
    (h : ∀ k ∈ mapKeys m, k ∈ mapKeys MOUSE_MOVE_KEYS) :
    ∃ a1, acceleration m a = .ok a1 := by
  induction m generalizing a with
  | nil => exact ⟨a, rfl⟩
  | cons p m ih =>
    obtain ⟨a1, h1⟩ := accelStep_ok a p (h p.1 (by simp [mapKeys]))
    have hrest : ∀ k ∈ mapKeys m, k ∈ mapKeys MOUSE_MOVE_KEYS := fun k hk =>
      h k (by simp only [mapKeys, List.map_cons, List.mem_cons]; exact Or.inr hk)
    obtain ⟨a2, h2⟩ := ih a1 hrest
    exact ⟨a2, by simp [acceleration, h1, h2]⟩

end AccelFacts

section TickFacts

variable {K : Type} [LinearOrderedField K] [FloorRing K]

/-- With a well-formed state the integrator returns, and it changes only the
sink, the velocity and the fractional position. -/
theorem integrate_ok (decay : K) (s : Loop K) (h : WellFormed s) :
    ∃ s1, integrate decay s = .ok s1 ∧ s1.move_keys_held = s.move_keys_held ∧
      s1.modifier_held = s.modifier_held ∧
      s1.last_modifier_pressed = s.last_modifier_pressed ∧
      s1.mouse_used = s.mouse_used ∧ s1.t = s.t := by
  obtain ⟨a, ha⟩ := acceleration_ok s.move_keys_held ((0, 0) : K × K)
    (fun k hk => by rw [← h]; exact hk)
  unfold integrate
  rw [ha]
  exact ⟨_, rfl, rfl, rfl, rfl, rfl, rfl⟩

/-- With a well-formed state the end of the tick returns, advancing the time by
one poll interval. -/
theorem endTick_ok (decay : K) (s : Loop K) (h : WellFormed s) :
    ∃ s1, endTick decay s = .ok s1 ∧ s1.move_keys_held = s.move_keys_held ∧
      s1.modifier_held = s.modifier_held ∧
      s1.last_modifier_pressed = s.last_modifier_pressed ∧
      s1.mouse_used = s.mouse_used ∧ s1.t = s.t + POLL_INTERVAL := by
  obtain ⟨s1, h1, hk, hm, hl, hu, ht⟩ := integrate_ok decay s h
  unfold endTick
  rw [h1]
  exact ⟨_, rfl, hk, hm, hl, hu, by simp [ht]⟩

theorem steps_append (decay : K) (s : Loop K) (xs ys : List Step) :
    steps decay s (xs ++ ys) =
      match steps decay s xs with
      | .ok s1 => steps decay s1 ys
      | .error err => .error err := by
  induction xs generalizing s with
  | nil => rfl
  | cons x xs ih =>
    simp only [List.cons_append, steps]
    cases step decay s x with
    | ok s1 => exact ih s1
    | error err => rfl

theorem steps_events (decay : K) (s : Loop K) (events : List input_event) :
    steps decay s (events.map Step.event) = .ok (events.foldl processEvent s) := by
  induction events generalizing s with
  | nil => rfl
  | cons e events ih => simpa [steps, step] using ih (processEvent s e)

/-- The loop over batches is the run over the steps of its trace. -/
theorem mainLoop_eq_steps (decay : K) (s : Loop K) (batches : List (List input_event)) :
    mainLoop decay s batches = steps decay s (trace batches) := by
  induction batches generalizing s with
  | nil => rfl
  | cons events rest ih =>
    simp only [mainLoop, trace, batchSteps, steps_append, steps_events, tick]
    cases h : endTick decay (List.foldl processEvent s events) with
    | ok s1 => simp [steps, step, h, ih]
    | error err => simp [steps, step, h]

end TickFacts

/-! ## The modifier variables between a press and a release -/

theorem processEvent_non_key {K : Type} (s : Loop K) (e : input_event)
    (htype : e.type ≠ EV_KEY) : processEvent s e = { s with output := s.output.write e } := by
  simp [processEvent, htype]

/-- An event that is no movement-key or button-key event and no modifier
release either keeps mouse_used and last_modifier_pressed, or is a modifier
press, which clears mouse_used and restarts the clock at the current tick. -/
theorem processEvent_without_mouse_keys {K : Type} (s : Loop K) (e : input_event)
    (hwf : WellFormed s) (hq : isMouseKeyEvent e = false)
    (hr : isModifierEvent e KEY_RELEASE = false) :
    ((processEvent s e).mouse_used = s.mouse_used ∧
      (processEvent s e).last_modifier_pressed = s.last_modifier_pressed) ∨
    ((processEvent s e).mouse_used = false ∧
      (processEvent s e).last_modifier_pressed = s.t) := by
  by_cases htype : e.type = EV_KEY
  · by_cases hcode : e.code = MOUSE_MODIFIER_KEY
    · have hnr : e.value ≠ KEY_RELEASE := by
        intro hv
        simp [isModifierEvent, htype, hcode, hv] at hr
      by_cases hp : e.value = KEY_PRESS
      · right
        rw [processEvent_modifier_press s e htype hcode hp]
        exact ⟨rfl, rfl⟩
      · left
        rw [processEvent_modifier_other s e htype hcode hp hnr]
        exact ⟨rfl, rfl⟩
    · left
      simp only [isMouseKeyEvent, htype, beq_self_eq_true, Bool.true_and, Bool.or_eq_false_iff]
        at hq
      exact ⟨processEvent_mouse_used_unmapped s e hwf hcode hq.1 hq.2,
        (processEvent_modifier_vars s e (fun _ => hcode)).2.1⟩
  · left
    rw [processEvent_non_key s e htype]
    exact ⟨rfl, rfl⟩

/-- An event that is no press of a movement key or button key and no modifier
press or release keeps mouse_used and last_modifier_pressed. -/
theorem processEvent_without_presses {K : Type} (s : Loop K) (e : input_event)
    (hwf : WellFormed s) (hq : (isMouseKeyEvent e && e.value == KEY_PRESS) = false)
    (hp : isModifierEvent e KEY_PRESS = false)
    (hr : isModifierEvent e KEY_RELEASE = false) :
    (processEvent s e).mouse_used = s.mouse_used ∧
    (processEvent s e).last_modifier_pressed = s.last_modifier_pressed := by
  by_cases htype : e.type = EV_KEY
  · by_cases hcode : e.code = MOUSE_MODIFIER_KEY
    · have hnr : e.value ≠ KEY_RELEASE := by
        intro hv
        simp [isModifierEvent, htype, hcode, hv] at hr
      have hnp : e.value ≠ KEY_PRESS := by
        intro hv
        simp [isModifierEvent, htype, hcode, hv] at hp
      rw [processEvent_modifier_other s e htype hcode hnp hnr]
      exact ⟨rfl, rfl⟩
    · have hvars := processEvent_modifier_vars s e (fun _ => hcode)
      refine ⟨?_, hvars.2.1⟩
      by_cases hv : e.value = KEY_PRESS
      · simp only [isMouseKeyEvent, htype, hv, beq_self_eq_true, Bool.true_and, Bool.and_true,
          Bool.or_eq_false_iff] at hq
        exact processEvent_mouse_used_unmapped s e hwf hcode hq.1 hq.2
      · exact hvars.2.2 hv
  · rw [processEvent_non_key s e htype]
    exact ⟨rfl, rfl⟩

theorem mem_eventsOf (e : input_event) (l : List Step) :
    Step.event e ∈ l → e ∈ eventsOf l := by
  induction l with
  | nil => simp
  | cons x l ih =>
    cases x with
    | event e' =>
      intro h
      simp only [List.mem_cons, Step.event.injEq] at h
      simp only [eventsOf, List.mem_cons]
      exact h.imp id ih
    | endOfTick =>
      intro h
      simp only [List.mem_cons] at h
      rcases h with h | h
      · exact absurd h (by simp)
      · exact ih h

/-- The release of the modifier with mouse_used false, by the time elapsed
since the clock was restarted. -/
theorem processEvent_modifier_release_unused {K : Type} (s : Loop K) (e : input_event)
    (htype : e.type = EV_KEY) (hcode : e.code = MOUSE_MODIFIER_KEY)
    (hvalue : e.value = KEY_RELEASE) (hused : s.mouse_used = false) :
    processEvent s e =
      if s.t - s.last_modifier_pressed < MOUSE_MODIFIER_VOID_DURATION then
        { s with modifier_held := false
                 output := (s.output.write { e with value := KEY_PRESS }).write e }
      else { s with modifier_held := false } := by
  have hrp : ¬ KEY_RELEASE = KEY_PRESS := by decide
  simp only [processEvent, htype, hcode, handleModifier, hvalue, hused, hrp, ne_eq,
    not_true_eq_false, if_true, if_false, Bool.false_eq_true]

section ModifierRuns

variable {K : Type} [LinearOrderedField K] [FloorRing K]

/-- Between a modifier press at time t0 and the next modifier release, with
no movement-key or button-key event, the run goes on, mouse_used stays false,
the clock was last restarted at or after t0, and the loop time is t0 plus the
ticks passed. -/
theorem steps_without_mouse_keys (decay : K) (t0 : Int) (mid : List Step) :
    ∀ (s : Loop K) (n : Nat), WellFormed s → s.mouse_used = false →
      t0 ≤ s.last_modifier_pressed → s.t = t0 + (n : Int) * POLL_INTERVAL →
      (∀ e, Step.event e ∈ mid →
        isMouseKeyEvent e = false ∧ isModifierEvent e KEY_RELEASE = false) →
      ∃ s2, steps decay s mid = .ok s2 ∧ WellFormed s2 ∧ s2.mouse_used = false ∧
        t0 ≤ s2.last_modifier_pressed ∧
        s2.t = t0 + ((n + tickCount mid : Nat) : Int) * POLL_INTERVAL := by
  induction mid with
  | nil =>
    intro s n hwf hu hl ht _
    exact ⟨s, rfl, hwf, hu, hl, by simpa [tickCount] using ht⟩
  | cons x mid ih =>
    intro s n hwf hu hl ht hq
    have hq' : ∀ e, Step.event e ∈ mid →
        isMouseKeyEvent e = false ∧ isModifierEvent e KEY_RELEASE = false :=
      fun e he => hq e (List.mem_cons_of_mem _ he)
    cases x with
    | event e =>
      obtain ⟨hqe, hre⟩ := hq e (List.mem_cons_self _ _)
      have hwf1 := processEvent_wellFormed s e hwf
      have ht1 : (processEvent s e).t = t0 + (n : Int) * POLL_INTERVAL := by
        rw [(processEvent_frame s e).2, ht]
      have hn : (0 : Int) ≤ (n : Int) * POLL_INTERVAL :=
        mul_nonneg (Int.ofNat_nonneg n) (by decide)
      have hvars : (processEvent s e).mouse_used = false ∧
          t0 ≤ (processEvent s e).last_modifier_pressed := by
        rcases processEvent_without_mouse_keys s e hwf hqe hre with ⟨h1, h2⟩ | ⟨h1, h2⟩
        · exact ⟨by rw [h1, hu], by rw [h2]; exact hl⟩
        · exact ⟨h1, by rw [h2, ht]; omega⟩
      obtain ⟨s2, h2, hrest⟩ := ih (processEvent s e) n hwf1 hvars.1 hvars.2 ht1 hq'
      exact ⟨s2, by simpa [steps, step] using h2, by simpa [tickCount] using hrest⟩
    | endOfTick =>
      obtain ⟨s1, h1, hk, _, hl1, hu1, ht1⟩ := endTick_ok decay s hwf
      have hwf1 : WellFormed s1 := by
        unfold WellFormed at *
        rw [hk, hwf]
      have ht1' : s1.t = t0 + ((n + 1 : Nat) : Int) * POLL_INTERVAL := by
        rw [ht1, ht]
        push_cast
        ring
      obtain ⟨s2, h2, hwf2, hu2, hl2, ht2⟩ :=
        ih s1 (n + 1) hwf1 (by rw [hu1, hu]) (by rw [hl1]; exact hl) ht1' hq'
      refine ⟨s2, by simpa [steps, step, h1] using h2, hwf2, hu2, hl2, ?_⟩
      rw [ht2]
      simp only [tickCount]
      congr 2
      omega

/-- While the modifier is held after a press at time t0, with no press of a
movement key or button key and no further modifier press or release, the run
goes on, mouse_used stays false, the clock still reads t0, and the loop time
is t0 plus the ticks passed. -/
theorem steps_without_presses (decay : K) (t0 : Int) (mid : List Step) :
    ∀ (s : Loop K) (n : Nat), WellFormed s → s.mouse_used = false →
      s.last_modifier_pressed = t0 → s.t = t0 + (n : Int) * POLL_INTERVAL →
      (∀ e, Step.event e ∈ mid →
        (isMouseKeyEvent e && e.value == KEY_PRESS) = false ∧
        isModifierEvent e KEY_PRESS = false ∧ isModifierEvent e KEY_RELEASE = false) →
      ∃ s2, steps decay s mid = .ok s2 ∧ WellFormed s2 ∧ s2.mouse_used = false ∧
        s2.last_modifier_pressed = t0 ∧
        s2.t = t0 + ((n + tickCount mid : Nat) : Int) * POLL_INTERVAL := by
  induction mid with
  | nil =>
    intro s n hwf hu hl ht _
    exact ⟨s, rfl, hwf, hu, hl, by simpa [tickCount] using ht⟩
  | cons x mid ih =>
    intro s n hwf hu hl ht hq
    have hq' : ∀ e, Step.event e ∈ mid →
        (isMouseKeyEvent e && e.value == KEY_PRESS) = false ∧
        isModifierEvent e KEY_PRESS = false ∧ isModifierEvent e KEY_RELEASE = false :=
      fun e he => hq e (List.mem_cons_of_mem _ he)
    cases x with
    | event e =>
      obtain ⟨hqe, hpe, hre⟩ := hq e (List.mem_cons_self _ _)
      have hwf1 := processEvent_wellFormed s e hwf
      have ht1 : (processEvent s e).t = t0 + (n : Int) * POLL_INTERVAL := by
        rw [(processEvent_frame s e).2, ht]
      obtain ⟨h1, h2⟩ := processEvent_without_presses s e hwf hqe hpe hre
      obtain ⟨s2, hs2, hrest⟩ :=
        ih (processEvent s e) n hwf1 (by rw [h1, hu]) (by rw [h2, hl]) ht1 hq'
      exact ⟨s2, by simpa [steps, step] using hs2, by simpa [tickCount] using hrest⟩
    | endOfTick =>
      obtain ⟨s1, h1, hk, _, hl1, hu1, ht1⟩ := endTick_ok decay s hwf
      have hwf1 : WellFormed s1 := by
        unfold WellFormed at *
        rw [hk, hwf]
      have ht1' : s1.t = t0 + ((n + 1 : Nat) : Int) * POLL_INTERVAL := by
        rw [ht1, ht]
        push_cast
        ring
      obtain ⟨s2, h2, hwf2, hu2, hl2, ht2⟩ :=
        ih s1 (n + 1) hwf1 (by rw [hu1, hu]) (by rw [hl1, hl]) ht1' hq'
      refine ⟨s2, by simpa [steps, step, h1] using h2, hwf2, hu2, hl2, ?_⟩
      rw [ht2]
      simp only [tickCount]
      congr 2
      omega

end ModifierRuns

/-! ## Per-event contract -/

/-- C1: an EV_KEY event whose code is not the modifier key, processed while the
modifier is not held, is written to the sink once and unchanged, and nothing
else in the loop state changes. -/
theorem key_passthrough_when_modifier_not_held {K : Type} (s : Loop K) (e : input_event)
    (htype : e.type = EV_KEY) (hcode : e.code ≠ MOUSE_MODIFIER_KEY)
    (hheld : s.modifier_held = false) :
    (processEvent s e).output.written = s.output.written ++ [e] ∧
    (processEvent s e).modifier_held = s.modifier_held ∧
    (processEvent s e).last_modifier_pressed = s.last_modifier_pressed ∧
    (processEvent s e).mouse_used = s.mouse_used ∧
    (processEvent s e).move_keys_held = s.move_keys_held ∧
    processEvent s e = { s with output := s.output.write e } := by
  simp [processEvent, htype, hcode, hheld, Device.write]

theorem key_passthrough_when_modifier_not_held_witness :
    (sampleEvent EV_KEY KEY_ENTER 1).type = EV_KEY ∧
    (sampleEvent EV_KEY KEY_ENTER 1).code ≠ MOUSE_MODIFIER_KEY ∧
    sampleStart.modifier_held = false ∧
    (processEvent sampleStart (sampleEvent EV_KEY KEY_ENTER 1)).output.written
      = [sampleEvent EV_KEY KEY_ENTER 1] :=
  ⟨rfl, by decide, rfl,
    (key_passthrough_when_modifier_not_held sampleStart (sampleEvent EV_KEY KEY_ENTER 1)
      rfl (by decide) rfl).1⟩

/-- C2: an event whose type is not EV_KEY is written to the sink once and
unchanged in every loop state, and nothing else in the loop state changes. -/
theorem non_key_event_passthrough {K : Type} (s : Loop K) (e : input_event)
    (htype : e.type ≠ EV_KEY) :
    (processEvent s e).output.written = s.output.written ++ [e] ∧
    (processEvent s e).modifier_held = s.modifier_held ∧
    (processEvent s e).last_modifier_pressed = s.last_modifier_pressed ∧
    (processEvent s e).mouse_used = s.mouse_used ∧
    (processEvent s e).move_keys_held = s.move_keys_held ∧
    processEvent s e = { s with output := s.output.write e } := by
  simp [processEvent, htype, Device.write]

theorem non_key_event_passthrough_witness :
    (sampleEvent EV_SYN 0 0).type ≠ EV_KEY ∧
    (processEvent sampleHeld (sampleEvent EV_SYN 0 0)).output.written
      = [sampleEvent EV_SYN 0 0] :=
  ⟨by decide,
    (non_key_event_passthrough sampleHeld (sampleEvent EV_SYN 0 0)
      (by decide)).1⟩

/-- C3: a modifier press at tick i writes nothing; if no movement-key or
button-key event and no modifier release is processed before the release at
tick j, and (j - i) * 20 ms is under the 300 ms window, the release writes
exactly the KEY_TAB press (value 1) and then the KEY_TAB release (value 0). -/
theorem modifier_tap_replayed {K : Type} [LinearOrderedField K] [FloorRing K] (decay : K)
    (s : Loop K) (press release : input_event) (mid : List Step) (hwf : WellFormed s)
    (hpress : press.type = EV_KEY ∧ press.code = MOUSE_MODIFIER_KEY ∧ press.value = KEY_PRESS)
    (hrelease : release.type = EV_KEY ∧ release.code = MOUSE_MODIFIER_KEY ∧
      release.value = KEY_RELEASE)
    (hmid : ∀ e ∈ eventsOf mid,
      isMouseKeyEvent e = false ∧ isModifierEvent e KEY_RELEASE = false)
    (hwin : (tickCount mid : Int) * POLL_INTERVAL < MOUSE_MODIFIER_VOID_DURATION) :
    (processEvent s press).output = s.output ∧
    ∃ s2, steps decay (processEvent s press) mid = .ok s2 ∧
      (processEvent s2 release).output.written = s2.output.written ++
        [ { time := release.time, type := EV_KEY, code := KEY_TAB, value := 1 },
          { time := release.time, type := EV_KEY, code := KEY_TAB, value := 0 } ] := by
  obtain ⟨hpt, hpc, hpv⟩ := hpress
  obtain ⟨hrt, hrc, hrv⟩ := hrelease
  rw [processEvent_modifier_press s press hpt hpc hpv]
  refine ⟨rfl, ?_⟩
  obtain ⟨s2, h2, -, hu2, hl2, ht2⟩ := steps_without_mouse_keys decay s.t mid
    { s with modifier_held := true, last_modifier_pressed := s.t, mouse_used := false } 0
    hwf rfl (le_refl _) (by simp) (fun e he => hmid e (mem_eventsOf e mid he))
  refine ⟨s2, h2, ?_⟩
  rw [processEvent_modifier_release_unused s2 release hrt hrc hrv hu2]
  have hlt : s2.t - s2.last_modifier_pressed < MOUSE_MODIFIER_VOID_DURATION := by
    rw [ht2]
    simp only [Nat.zero_add]
    omega
  rw [if_pos hlt]
  have hrel : release = { time := release.time, type := EV_KEY, code := KEY_TAB, value := 0 } := by
    cases release
    simp_all [MOUSE_MODIFIER_KEY, KEY_RELEASE]
  simp only [Device.write, List.append_assoc, List.singleton_append]
  congr 2
  · rw [← hrt]
    simp [← hrc, MOUSE_MODIFIER_KEY, KEY_PRESS]
    exact hrc
  · simpa using hrel

theorem modifier_tap_replayed_witness :
    (processEvent sampleStart (sampleEvent EV_KEY KEY_TAB 1)).output = sampleStart.output ∧
    ∃ s2, steps (1 / 2 : ℚ) (processEvent sampleStart (sampleEvent EV_KEY KEY_TAB 1))
        [Step.endOfTick, Step.event (sampleEvent EV_KEY KEY_TAB 2), Step.endOfTick] = .ok s2 ∧
      (processEvent s2 (sampleEvent EV_KEY KEY_TAB 0)).output.written = s2.output.written ++
        [sampleEvent EV_KEY KEY_TAB 1, sampleEvent EV_KEY KEY_TAB 0] :=
  modifier_tap_replayed (1 / 2 : ℚ) sampleStart (sampleEvent EV_KEY KEY_TAB 1)
    (sampleEvent EV_KEY KEY_TAB 0)
    [Step.endOfTick, Step.event (sampleEvent EV_KEY KEY_TAB 2), Step.endOfTick]
    (by decide) (by decide) (by decide) (by decide) (by decide)

/-- C4: a modifier press at tick i writes nothing; if no movement key or button
key is pressed and no other modifier press or release is processed before the
release at tick j, and (j - i) * 20 ms is at or beyond the 300 ms window, the
release writes nothing either. -/
theorem modifier_long_hold_emits_nothing {K : Type} [LinearOrderedField K] [FloorRing K]
    (decay : K) (s : Loop K) (press release : input_event) (mid : List Step)
    (hwf : WellFormed s)
    (hpress : press.type = EV_KEY ∧ press.code = MOUSE_MODIFIER_KEY ∧ press.value = KEY_PRESS)
    (hrelease : release.type = EV_KEY ∧ release.code = MOUSE_MODIFIER_KEY ∧
      release.value = KEY_RELEASE)
    (hmid : ∀ e ∈ eventsOf mid,
      (isMouseKeyEvent e && e.value == KEY_PRESS) = false ∧
      isModifierEvent e KEY_PRESS = false ∧ isModifierEvent e KEY_RELEASE = false)
    (hwin : MOUSE_MODIFIER_VOID_DURATION ≤ (tickCount mid : Int) * POLL_INTERVAL) :
    (processEvent s press).output = s.output ∧
    ∃ s2, steps decay (processEvent s press) mid = .ok s2 ∧
      (processEvent s2 release).output = s2.output := by
  obtain ⟨hpt, hpc, hpv⟩ := hpress
  obtain ⟨hrt, hrc, hrv⟩ := hrelease
  rw [processEvent_modifier_press s press hpt hpc hpv]
  refine ⟨rfl, ?_⟩
  obtain ⟨s2, h2, -, hu2, hl2, ht2⟩ := steps_without_presses decay s.t mid
    { s with modifier_held := true, last_modifier_pressed := s.t, mouse_used := false } 0
    hwf rfl rfl (by simp) (fun e he => hmid e (mem_eventsOf e mid he))
  refine ⟨s2, h2, ?_⟩
  rw [processEvent_modifier_release_unused s2 release hrt hrc hrv hu2]
  have hge : ¬ s2.t - s2.last_modifier_pressed < MOUSE_MODIFIER_VOID_DURATION := by
    rw [ht2, hl2]
    simp only [Nat.zero_add]
    omega
  rw [if_neg hge]

theorem modifier_long_hold_emits_nothing_witness :
    (processEvent sampleStart (sampleEvent EV_KEY KEY_TAB 1)).output = sampleStart.output ∧
    ∃ s2, steps (1 / 2 : ℚ) (processEvent sampleStart (sampleEvent EV_KEY KEY_TAB 1))
        (List.replicate 15 Step.endOfTick) = .ok s2 ∧
      (processEvent s2 (sampleEvent EV_KEY KEY_TAB 0)).output = s2.output :=
  modifier_long_hold_emits_nothing (1 / 2 : ℚ) sampleStart (sampleEvent EV_KEY KEY_TAB 1)
    (sampleEvent EV_KEY KEY_TAB 0) (List.replicate 15 Step.endOfTick)
    (by decide) (by decide) (by decide) (by decide) (by decide)

/-- C5: with the modifier held, an EV_KEY event of a button-emulation key is
written once, with its code replaced by the mapped button (KEY_ENTER to
BTN_LEFT, KEY_LEFTSHIFT to BTN_MIDDLE, KEY_SPACE to BTN_RIGHT) and its
timestamp, type and value kept; the written code differs from the key code. -/
theorem button_key_translated_when_modifier_held {K : Type} (s : Loop K) (e : input_event)
    (button : Nat) (htype : e.type = EV_KEY) (hheld : s.modifier_held = true)
    (hkey : (e.code = KEY_ENTER ∧ button = BTN_LEFT) ∨
      (e.code = KEY_LEFTSHIFT ∧ button = BTN_MIDDLE) ∨
      (e.code = KEY_SPACE ∧ button = BTN_RIGHT)) :
    (processEvent s e).output.written = s.output.written ++
      [{ time := e.time, type := e.type, code := button, value := e.value }] ∧
    button ≠ e.code := by
  have hfind : mapFind MOUSE_BUTTON_KEYS e.code = some button ∧ e.code ≠ MOUSE_MODIFIER_KEY ∧
      button ≠ e.code := by
    rcases hkey with ⟨hc, hb⟩ | ⟨hc, hb⟩ | ⟨hc, hb⟩ <;> rw [hc, hb] <;> decide
  obtain ⟨hf, hmod, hne⟩ := hfind
  refine ⟨?_, hne⟩
  simp only [processEvent, htype, hmod, hheld, ne_eq, not_true_eq_false, if_false,
    Bool.not_true, Bool.false_eq_true, handleButtonKey, hf]
  by_cases hv : e.value = KEY_PRESS <;> simp [hv, Device.write, handleMoveKey_output]

theorem button_key_translated_when_modifier_held_witness :
    (processEvent sampleHeld
        (sampleEvent EV_KEY KEY_LEFTSHIFT 0)).output.written
      = [sampleEvent EV_KEY BTN_MIDDLE 0] ∧ BTN_MIDDLE ≠ KEY_LEFTSHIFT :=
  button_key_translated_when_modifier_held sampleHeld
    (sampleEvent EV_KEY KEY_LEFTSHIFT 0) BTN_MIDDLE rfl rfl (Or.inr (Or.inl ⟨rfl, rfl⟩))

/-- C6: with the modifier held, an EV_KEY event of a movement key writes nothing;
a press sets its entry of move_keys_held and mouse_used to true, a release sets
its entry to false and keeps mouse_used; any other value changes nothing; every
other entry, the key set, modifier_held and last_modifier_pressed are unchanged. -/
theorem move_key_when_modifier_held {K : Type} (s : Loop K) (e : input_event)
    (htype : e.type = EV_KEY) (hheld : s.modifier_held = true) (hwf : WellFormed s)
    (hkey : isMoveKey e.code = true) :
    (processEvent s e).output = s.output ∧
    (e.value = KEY_PRESS →
      mapFind (processEvent s e).move_keys_held e.code = some true ∧
      (processEvent s e).mouse_used = true) ∧
    (e.value = KEY_RELEASE →
      mapFind (processEvent s e).move_keys_held e.code = some false ∧
      (processEvent s e).mouse_used = s.mouse_used) ∧
    (e.value ≠ KEY_PRESS → e.value ≠ KEY_RELEASE → processEvent s e = s) ∧
    (∀ k, k ≠ e.code →
      mapFind (processEvent s e).move_keys_held k = mapFind s.move_keys_held k) ∧
    mapKeys (processEvent s e).move_keys_held = mapKeys s.move_keys_held ∧
    (processEvent s e).modifier_held = s.modifier_held ∧
    (processEvent s e).last_modifier_pressed = s.last_modifier_pressed := by
  rw [processEvent_move_key s e htype hheld hkey]
  have hsome := mapFind_of_wellFormed s hwf e.code
  rw [hkey] at hsome
  have hmem : e.code ∈ mapKeys s.move_keys_held := (mapFind_isSome_iff _ _).1 hsome
  obtain ⟨b, hb⟩ := Option.isSome_iff_exists.1 hsome
  have hothers : ∀ (v : Bool) (k : Nat), k ≠ e.code →
      mapFind (mapAssign s.move_keys_held e.code v) k = mapFind s.move_keys_held k :=
    fun v k hk => mapFind_mapAssign_other _ _ _ _ hk
  by_cases hp : e.value = KEY_PRESS
  · have hnr : e.value ≠ KEY_RELEASE := by rw [hp]; decide
    have hstep : handleMoveKey s e = { s with
        mouse_used := true
        move_keys_held := mapAssign s.move_keys_held e.code true } := by
      simp [handleMoveKey, hb, hp]
    rw [hstep]
    exact ⟨rfl, fun _ => ⟨mapFind_mapAssign_self _ _ _ hmem, rfl⟩, fun h => absurd h hnr,
      fun h => absurd hp h, hothers true, mapKeys_mapAssign _ _ _, rfl, rfl⟩
  · by_cases hr : e.value = KEY_RELEASE
    · have hstep : handleMoveKey s e = { s with
          move_keys_held := mapAssign s.move_keys_held e.code false } := by
        have hrp : ¬ KEY_RELEASE = KEY_PRESS := by decide
        simp only [handleMoveKey, hb, hr, hrp, if_true, if_false]
      rw [hstep]
      exact ⟨rfl, fun h => absurd h hp, fun _ => ⟨mapFind_mapAssign_self _ _ _ hmem, rfl⟩,
        fun _ h => absurd hr h, hothers false, mapKeys_mapAssign _ _ _, rfl, rfl⟩
    · have hstep : handleMoveKey s e = s := by
        simp [handleMoveKey, hb, hp, hr]
      rw [hstep]
      exact ⟨rfl, fun h => absurd h hp, fun h => absurd h hr, fun _ _ => rfl,
        fun _ _ => rfl, rfl, rfl, rfl⟩

theorem move_key_when_modifier_held_witness :
    (processEvent sampleHeld
        (sampleEvent EV_KEY KEY_T 1)).output = sampleStart.output ∧
    mapFind (processEvent sampleHeld
        (sampleEvent EV_KEY KEY_T 1)).move_keys_held KEY_T = some true ∧
    (processEvent sampleHeld
        (sampleEvent EV_KEY KEY_T 1)).mouse_used = true :=
  have h := move_key_when_modifier_held sampleHeld
    (sampleEvent EV_KEY KEY_T 1) rfl rfl (by decide) (by decide)
  ⟨h.1, h.2.1 rfl⟩

/-- C7: with the modifier held, an EV_KEY event whose code is not the modifier
key, not a movement key and not a button-emulation key writes nothing and
leaves the whole loop state as it is. -/
theorem unmapped_key_dropped_when_modifier_held {K : Type} (s : Loop K) (e : input_event)
    (htype : e.type = EV_KEY) (hheld : s.modifier_held = true) (hwf : WellFormed s)
    (hmod : e.code ≠ MOUSE_MODIFIER_KEY) (hmove : isMoveKey e.code = false)
    (hbutton : isButtonKey e.code = false) :
    processEvent s e = s ∧ (processEvent s e).output.written = s.output.written := by
  have hsome := mapFind_of_wellFormed s hwf e.code
  rw [hmove] at hsome
  have h1 : mapFind s.move_keys_held e.code = none := by
    cases h : mapFind s.move_keys_held e.code with
    | none => rfl
    | some b => rw [h] at hsome; simp at hsome
  have h2 : mapFind MOUSE_BUTTON_KEYS e.code = none := by
    unfold isButtonKey at hbutton
    cases h : mapFind MOUSE_BUTTON_KEYS e.code with
    | none => rfl
    | some b => rw [h] at hbutton; simp at hbutton
  have hs : processEvent s e = s := by
    simp only [processEvent, htype, hmod, hheld, ne_eq, not_true_eq_false, if_false,
      Bool.not_true, Bool.false_eq_true]
    rw [handleMoveKey_of_not_move s e h1]
    exact handleButtonKey_of_not_button s e h2
  exact ⟨hs, by rw [hs]⟩

theorem unmapped_key_dropped_when_modifier_held_witness :
    processEvent sampleHeld (sampleEvent EV_KEY 30 1)
      = sampleHeld :=
  (unmapped_key_dropped_when_modifier_held sampleHeld
    (sampleEvent EV_KEY 30 1) rfl rfl (by decide) (by decide) (by decide) (by decide)).1

/-- C8: a modifier release processed with mouse_used true yields modifier_held
false and every entry of move_keys_held false, whatever the entries were, over
the same key set, and writes nothing. -/
theorem modifier_release_after_mouse_use_resets {K : Type} (s : Loop K) (e : input_event)
    (htype : e.type = EV_KEY) (hcode : e.code = MOUSE_MODIFIER_KEY)
    (hvalue : e.value = KEY_RELEASE) (hused : s.mouse_used = true) :
    (processEvent s e).modifier_held = false ∧
    (∀ it ∈ (processEvent s e).move_keys_held, it.2 = false) ∧
    mapKeys (processEvent s e).move_keys_held = mapKeys s.move_keys_held ∧
    (WellFormed s → ∀ k, isMoveKey k = true →
      mapFind (processEvent s e).move_keys_held k = some false) ∧
    (processEvent s e).output = s.output := by
  have hnp : e.value ≠ KEY_PRESS := by rw [hvalue]; decide
  have hstep : processEvent s e =
      { s with modifier_held := false
               move_keys_held := s.move_keys_held.map (fun it => (it.1, false)) } := by
    simp [processEvent, htype, hcode, handleModifier, hvalue, hused]
    intro h
    exact absurd h (by decide)
  rw [hstep]
  refine ⟨rfl, ?_, mapKeys_clear _, ?_, rfl⟩
  · intro it hit
    simp only [List.mem_map] at hit
    obtain ⟨a, _, ha⟩ := hit
    rw [← ha]
  · intro hwf k hk
    apply mapFind_clear
    have h1 := mapFind_of_wellFormed s hwf k
    rw [hk] at h1
    exact (mapFind_isSome_iff _ _).1 h1

theorem modifier_release_after_mouse_use_resets_witness :
    mapFind (processEvent
        sampleMoving
        (sampleEvent EV_KEY KEY_TAB 0)).move_keys_held KEY_T = some false :=
  (modifier_release_after_mouse_use_resets
    sampleMoving
    (sampleEvent EV_KEY KEY_TAB 0) rfl rfl rfl rfl).2.2.2.1 (by decide) KEY_T (by decide)

/-! ## Fractional carry -/

section CarryFacts

variable {K : Type} [LinearOrderedField K] [FloorRing K]

theorem truncToInt_remainder (x : K) : |x - (truncToInt x : K)| < 1 := by
  unfold truncToInt
  split
  · rw [abs_lt]
    constructor
    · have := Int.floor_le x
      linarith
    · have := Int.lt_floor_add_one x
      linarith
  · rw [abs_lt]
    constructor
    · have := Int.ceil_lt_add_one x
      linarith
    · have := Int.le_ceil x
      linarith

/-- The integrator moves each axis by `carry` of its new velocity and sends
the non-zero deltas, the x axis first. -/
theorem integrate_carry (decay : K) (s s1 : Loop K) (h : integrate decay s = .ok s1) :
    s1.px = (carry s1.vx s.px).2 ∧ s1.py = (carry s1.vy s.py).2 ∧
    s1.output =
      (if (carry s1.vy s.py).1 ≠ 0 then
        (if (carry s1.vx s.px).1 ≠ 0 then s.output.send_rel REL_X (carry s1.vx s.px).1
          else s.output).send_rel REL_Y (carry s1.vy s.py).1
      else
        (if (carry s1.vx s.px).1 ≠ 0 then s.output.send_rel REL_X (carry s1.vx s.px).1
          else s.output)) := by
  unfold integrate at h
  split at h
  · cases h
  · simp only [Except.ok.injEq] at h
    subst h
    exact ⟨rfl, rfl, rfl⟩

end CarryFacts

/-! ## Velocity of one axis under acceleration, drag and decay -/

section VelocityFacts

variable {K : Type} [LinearOrderedField K]

/-- With the key held: the speed after the tick, and its direction. -/
theorem nextVelocity_held (decay v acc dv : K) (hdv : 0 ≤ dv) (hacc : dv < |acc|)
    (hv : 0 ≤ v * acc) (hd : 0 ≤ decay) :
    |_apply_drag (v + acc) dv * decay| = (|v| + |acc| - dv) * decay ∧
    0 ≤ _apply_drag (v + acc) dv * decay * acc := by
  rcases lt_trichotomy acc 0 with hneg | hzero | hpos
  · have hv0 : v ≤ 0 := by
      by_contra hc
      have : v * acc < 0 := mul_neg_of_pos_of_neg (not_le.1 hc) hneg
      linarith
    rw [abs_of_neg hneg] at hacc
    have hnot : ¬ (v + acc > 0) := by
      intro h
      linarith
    have hmin : min (v + acc + dv) 0 = v + acc + dv := min_eq_left (by linarith)
    rw [_apply_drag, if_neg hnot, hmin, abs_of_neg hneg, abs_of_nonpos hv0]
    have hle : (v + acc + dv) * decay ≤ 0 :=
      mul_nonpos_of_nonpos_of_nonneg (by linarith) hd
    refine ⟨?_, mul_nonneg_of_nonpos_of_nonpos hle hneg.le⟩
    rw [abs_of_nonpos hle]
    ring
  · rw [hzero, abs_zero] at hacc
    linarith
  · have hv0 : 0 ≤ v := by
      by_contra hc
      have : v * acc < 0 := mul_neg_of_neg_of_pos (not_le.1 hc) hpos
      linarith
    rw [abs_of_pos hpos] at hacc
    have hgt : v + acc > 0 := by linarith
    have hmax : max (v + acc - dv) 0 = v + acc - dv := max_eq_left (by linarith)
    rw [_apply_drag, if_pos hgt, hmax, abs_of_pos hpos, abs_of_nonneg hv0]
    have hge : 0 ≤ (v + acc - dv) * decay := mul_nonneg (by linarith) hd
    exact ⟨abs_of_nonneg hge, mul_nonneg hge hpos.le⟩

/-- With the key not held: the speed after the tick, and its direction. -/
theorem nextVelocity_unheld (decay v acc dv : K) (hdv : 0 ≤ dv) (hv : 0 ≤ v * acc)
    (hd : 0 ≤ decay) :
    |_apply_drag (v + 0) dv * decay| = max (|v| - dv) 0 * decay ∧
    0 ≤ _apply_drag (v + 0) dv * decay * acc := by
  rw [add_zero]
  by_cases hpos : v > 0
  · have hacc : 0 ≤ acc := by
      by_contra hc
      have : v * acc < 0 := mul_neg_of_pos_of_neg hpos (not_le.1 hc)
      linarith
    rw [_apply_drag, if_pos hpos, abs_of_pos hpos]
    have hge : 0 ≤ max (v - dv) 0 * decay := mul_nonneg (le_max_right _ _) hd
    exact ⟨abs_of_nonneg hge, mul_nonneg hge hacc⟩
  · have hv0 : v ≤ 0 := not_lt.1 hpos
    rw [_apply_drag, if_neg hpos, abs_of_nonpos hv0]
    have hle : min (v + dv) 0 * decay ≤ 0 :=
      mul_nonpos_of_nonpos_of_nonneg (min_le_right _ _) hd
    have hmm : -min (v + dv) 0 = max (-v - dv) 0 := by
      rcases le_total (v + dv) 0 with h | h
      · rw [min_eq_left h, max_eq_left (by linarith)]
        ring
      · rw [min_eq_right h, max_eq_right (by linarith)]
        simp
    constructor
    · rw [abs_of_nonpos hle, ← hmm]
      ring
    · rcases eq_or_lt_of_le hv0 with h0 | hneg
      · have hz : min (v + dv) 0 = 0 := by
          rw [h0, zero_add]
          exact min_eq_right hdv
        rw [hz]
        simp
      · have hacc : acc ≤ 0 := by
          by_contra hc
          have : v * acc < 0 := mul_neg_of_neg_of_pos hneg (not_le.1 hc)
          linarith
        exact mul_nonneg_of_nonpos_of_nonpos hle hacc

/-- Below the terminal speed, a tick with the key held raises the speed and
keeps it below the terminal speed. -/
theorem speed_held_bounds (decay u S : K) (hd0 : 0 < decay) (hd1 : decay < 1)
    (hu : u < decay * S / (1 - decay)) :
    u < (u + S) * decay ∧ (u + S) * decay < decay * S / (1 - decay) := by
  have h1 : 0 < 1 - decay := by linarith
  have hu' : u * (1 - decay) < decay * S := (lt_div_iff₀ h1).1 hu
  constructor
  · nlinarith
  · rw [lt_div_iff₀ h1]
    nlinarith

/-- A tick with the key not held does not raise the speed and takes off at
least the drag. -/
theorem speed_unheld_bounds (decay u dv : K) (hd1 : decay ≤ 1) (hu : 0 ≤ u) (hdv : 0 ≤ dv) :
    max (u - dv) 0 * decay ≤ max (u - dv) 0 ∧ max (u - dv) 0 ≤ u := by
  have hm : 0 ≤ max (u - dv) 0 := le_max_right _ _
  constructor
  · nlinarith
  · exact max_le (by linarith) hu

/-- The decay factor 0.5 ^ (DT / 0.2), the positive tenth root of one half,
is below 1. -/
theorem decay_lt_one (decay : K) (h : decay ^ 10 = 1 / 2) : decay < 1 := by
  by_contra hc
  have h1 : (1 : K) ≤ decay ^ 10 := one_le_pow₀ (not_lt.1 hc)
  rw [h] at h1
  norm_num at h1

theorem axisInv_of_zero (decay acc : K) (hacc : acc = 0 ∨ MOUSE_MOVE_DRAG * DT < |acc|)
    (hd0 : 0 < decay) (hd1 : decay < 1) : AxisInv decay acc 0 := by
  rcases hacc with h | h
  · exact Or.inl ⟨h, rfl⟩
  · refine Or.inr ⟨h, by simp, ?_⟩
    rw [abs_zero, terminalSpeed]
    exact div_pos (mul_pos hd0 (by linarith)) (by linarith)

/-- One tick on one axis, with the key held (acceleration `acc`) and with the
key not held (acceleration 0). -/
theorem axis_step (decay acc v : K) (hd0 : 0 < decay) (hd1 : decay < 1)
    (h : AxisInv decay acc v) :
    AxisInv decay acc (nextVelocity decay v acc) ∧
    AxisInv decay acc (nextVelocity decay v 0) ∧
    (acc ≠ 0 → |v| < |nextVelocity decay v acc|) ∧
    (acc = 0 → nextVelocity decay v acc = v) ∧
    |nextVelocity decay v 0| ≤ max (|v| - MOUSE_MOVE_DRAG * DT) 0 ∧
    max (|v| - MOUSE_MOVE_DRAG * DT) 0 ≤ |v| := by
  have hdv : (0 : K) ≤ MOUSE_MOVE_DRAG * DT := by
    simp only [MOUSE_MOVE_DRAG, DT, POLL_RATE]
    norm_num
  rcases h with ⟨hacc, hv⟩ | ⟨hacc, hv, hlt⟩
  · subst hacc hv
    have hz : nextVelocity decay (0 : K) 0 = 0 := by
      simp [nextVelocity, _apply_drag, min_eq_right hdv]
    rw [hz]
    refine ⟨Or.inl ⟨rfl, rfl⟩, Or.inl ⟨rfl, rfl⟩, fun h => absurd rfl h, fun _ => rfl, ?_, ?_⟩
    · simp
    · simp [hdv]
  · have hne : acc ≠ 0 := by
      intro h0
      rw [h0, abs_zero] at hacc
      linarith
    obtain ⟨hheld, hdir⟩ := nextVelocity_held decay v acc _ hdv hacc hv hd0.le
    obtain ⟨hun, hdirun⟩ := nextVelocity_unheld decay v acc _ hdv hv hd0.le
    have hb := speed_held_bounds decay |v| (|acc| - MOUSE_MOVE_DRAG * DT) hd0 hd1 hlt
    have hub := speed_unheld_bounds decay |v| (MOUSE_MOVE_DRAG * DT) hd1.le (abs_nonneg v) hdv
    have e1 : |v| + (|acc| - MOUSE_MOVE_DRAG * DT) = |v| + |acc| - MOUSE_MOVE_DRAG * DT := by
      ring
    rw [e1] at hb
    refine ⟨Or.inr ⟨hacc, hdir, ?_⟩, Or.inr ⟨hacc, hdirun, ?_⟩, fun _ => ?_,
      fun h0 => absurd h0 hne, ?_, hub.2⟩
    · rw [nextVelocity, hheld]
      exact hb.2
    · rw [nextVelocity, hun]
      exact lt_of_le_of_lt (le_trans hub.1 hub.2) hlt
    · rw [nextVelocity, hheld]
      exact hb.1
    · rw [nextVelocity, hun]
      exact hub.1

end VelocityFacts

/-! ## Runs in which a single movement key is used -/

theorem mem_of_mapFind {β : Type} (m : List (Nat × β)) (k : Nat) (v : β)
    (h : mapFind m k = some v) : (k, v) ∈ m := by
  induction m with
  | nil => simp [mapFind] at h
  | cons p m ih =>
    obtain ⟨k', v'⟩ := p
    by_cases hk : k' = k
    · simp only [mapFind, hk, if_true, Option.some.injEq] at h
      simp [hk, h]
    · simp only [mapFind, hk, if_false] at h
      exact List.mem_cons_of_mem _ (ih h)

theorem mem_mapAssign {β : Type} (m : List (Nat × β)) (k : Nat) (v : β) (it : Nat × β)
    (h : it ∈ mapAssign m k v) : it ∈ m ∨ it = (k, v) := by
  induction m with
  | nil => simp [mapAssign] at h
  | cons p m ih =>
    obtain ⟨k', v'⟩ := p
    by_cases hk : k' = k
    · simp only [mapAssign, hk, if_true, List.mem_cons] at h
      rcases h with h | h
      · exact Or.inr h
      · exact Or.inl (List.mem_cons_of_mem _ h)
    · simp only [mapAssign, hk, if_false, List.mem_cons] at h
      rcases h with h | h
      · exact Or.inl (by rw [h]; exact List.mem_cons_self _ _)
      · exact (ih h).imp (List.mem_cons_of_mem _) id

/-- Every movement key accelerates along exactly one axis, by at least 4000. -/
theorem move_key_vector (k : Nat) (da : Int × Int) (h : mapFind MOUSE_MOVE_KEYS k = some da) :
    (da.1 = 0 ∧ 4000 ≤ |da.2|) ∨ (da.2 = 0 ∧ 4000 ≤ |da.1|) := by
  have hall : ∀ p ∈ MOUSE_MOVE_KEYS,
      (p.2.1 = 0 ∧ 4000 ≤ |p.2.2|) ∨ (p.2.2 = 0 ∧ 4000 ≤ |p.2.1|) := by decide
  exact hall (k, da) (mem_of_mapFind _ _ _ h)

theorem wellFormed_nodup {K : Type} (s : Loop K) (h : WellFormed s) :
    (mapKeys s.move_keys_held).Nodup := by
  rw [h, mapKeys_MOUSE_MOVE_KEYS]
  decide

theorem handleMoveKey_velocity {K : Type} (s : Loop K) (e : input_event) :
    (handleMoveKey s e).vx = s.vx ∧ (handleMoveKey s e).vy = s.vy ∧
    (handleMoveKey s e).px = s.px ∧ (handleMoveKey s e).py = s.py := by
  unfold handleMoveKey
  split
  · split
    · exact ⟨rfl, rfl, rfl, rfl⟩
    · split <;> exact ⟨rfl, rfl, rfl, rfl⟩
  · exact ⟨rfl, rfl, rfl, rfl⟩

theorem handleMoveKey_others {K : Type} (s : Loop K) (e : input_event)
    (h : ∀ it ∈ s.move_keys_held, it.1 ≠ e.code → it.2 = false) :
    ∀ it ∈ (handleMoveKey s e).move_keys_held, it.1 ≠ e.code → it.2 = false := by
  have key : ∀ v : Bool, ∀ it ∈ mapAssign s.move_keys_held e.code v,
      it.1 ≠ e.code → it.2 = false := by
    intro v it hit hne
    rcases mem_mapAssign _ _ _ _ hit with hm | hm
    · exact h it hm hne
    · rw [hm] at hne
      exact absurd rfl hne
  unfold handleMoveKey
  split
  · split
    · exact key true
    · split
      · exact key false
      · exact h
  · exact h

/-- An event of the movement key `k` in mouse mode keeps the other keys idle
and the velocity; when it is not a press, a key that is not flagged stays so. -/
theorem processEvent_only_key {K : Type} (k : Nat) (hk : isMoveKey k = true) (s : Loop K)
    (h : OthersIdle k s) (e : input_event) (he : e.type = EV_KEY ∧ e.code = k) :
    OthersIdle k (processEvent s e) ∧ (processEvent s e).vx = s.vx ∧
    (processEvent s e).vy = s.vy ∧
    (e.value ≠ KEY_PRESS → mapFind s.move_keys_held k = some false →
      mapFind (processEvent s e).move_keys_held k = some false) := by
  obtain ⟨hwf, hheld, hothers⟩ := h
  obtain ⟨htype, hcode⟩ := he
  subst hcode
  rw [processEvent_move_key s e htype hheld hk]
  have hfr := handleMoveKey_frame s e
  have hvel := handleMoveKey_velocity s e
  refine ⟨⟨?_, by rw [hfr.2.2.2.1, hheld], handleMoveKey_others s e hothers⟩,
    hvel.1, hvel.2.1, ?_⟩
  · unfold WellFormed at *
    rw [hfr.1, hwf]
  · intro hnp hflag
    have hmem : e.code ∈ mapKeys s.move_keys_held :=
      (mapFind_isSome_iff _ _).1 (by rw [hflag]; rfl)
    unfold handleMoveKey
    rw [hflag]
    simp only [hnp, if_false]
    split
    · exact mapFind_mapAssign_self _ _ _ hmem
    · exact hflag

theorem foldl_only_key {K : Type} (k : Nat) (hk : isMoveKey k = true)
    (b : List input_event) :
    ∀ s : Loop K, OthersIdle k s → (∀ e ∈ b, e.type = EV_KEY ∧ e.code = k) →
      OthersIdle k (b.foldl processEvent s) ∧ (b.foldl processEvent s).vx = s.vx ∧
      (b.foldl processEvent s).vy = s.vy ∧
      ((∀ e ∈ b, e.value ≠ KEY_PRESS) → mapFind s.move_keys_held k = some false →
        mapFind (b.foldl processEvent s).move_keys_held k = some false) := by
  induction b with
  | nil =>
    intro s h _
    exact ⟨h, rfl, rfl, fun _ hf => hf⟩
  | cons e b ih =>
    intro s h hb
    obtain ⟨h1, hx, hy, hf⟩ := processEvent_only_key k hk s h e (hb e (List.mem_cons_self _ _))
    obtain ⟨h2, hx2, hy2, hf2⟩ := ih (processEvent s e) h1
      (fun e' he' => hb e' (List.mem_cons_of_mem _ he'))
    refine ⟨h2, by rw [List.foldl_cons, hx2, hx], by rw [List.foldl_cons, hy2, hy], ?_⟩
    intro hnp hflag
    exact hf2 (fun e' he' => hnp e' (List.mem_cons_of_mem _ he'))
      (hf (hnp e (List.mem_cons_self _ _)) hflag)

section SingleKeyFacts

variable {K : Type} [LinearOrderedField K]

/-- The acceleration of a tick when at most the key `k` is flagged as held. -/
theorem acceleration_single (k : Nat) (da : Int × Int)
    (hk : mapFind MOUSE_MOVE_KEYS k = some da) (m : List (Nat × Bool)) :
    (mapKeys m).Nodup → (∀ it ∈ m, it.1 ≠ k → it.2 = false) → ∀ a : K × K,
      acceleration m a =
        .ok (if mapFind m k = some true then (a.1 + (da.1 : K) * DT, a.2 + (da.2 : K) * DT)
          else a) := by
  induction m with
  | nil =>
    intro _ _ a
    simp [acceleration, mapFind]
  | cons p m ih =>
    obtain ⟨k', b⟩ := p
    intro hnd hothers a
    have hnd' : (mapKeys m).Nodup := by
      simp only [mapKeys, List.map_cons, List.nodup_cons] at hnd
      exact hnd.2
    have hothers' : ∀ it ∈ m, it.1 ≠ k → it.2 = false :=
      fun it hit => hothers it (List.mem_cons_of_mem _ hit)
    by_cases hkk : k' = k
    · subst hkk
      have hnone : mapFind m k' = none := by
        rw [mapFind_eq_none_iff]
        simp only [mapKeys, List.map_cons, List.nodup_cons] at hnd
        exact hnd.1
      have hrest := ih hnd' hothers'
      have hhead : mapFind ((k', b) :: m) k' = some b := by simp [mapFind]
      rw [hhead]
      cases b with
      | true =>
        simp only [acceleration, accelStep, hk, if_true]
        rw [hrest, hnone]
        simp
      | false =>
        simp only [acceleration, accelStep, Bool.false_eq_true, if_false]
        rw [hrest, hnone]
        simp
    · have hb : b = false := hothers (k', b) (List.mem_cons_self _ _) hkk
      subst hb
      have hhead : mapFind ((k', false) :: m) k = mapFind m k := by simp [mapFind, hkk]
      rw [hhead]
      simp only [acceleration, accelStep, Bool.false_eq_true, if_false]
      exact ih hnd' hothers' a

end SingleKeyFacts

section SingleKeyRuns

variable {K : Type} [LinearOrderedField K] [FloorRing K]

omit [FloorRing K] in
theorem dragStep_pos : (0 : K) < MOUSE_MOVE_DRAG * DT := by
  simp only [MOUSE_MOVE_DRAG, DT, POLL_RATE]
  norm_num

omit [FloorRing K] in
/-- A component of a movement key's acceleration vector is zero or, per tick,
larger than the drag. -/
theorem accel_component (a : Int) (h : a = 0 ∨ 4000 ≤ |a|) :
    (a : K) * DT = 0 ∨ MOUSE_MOVE_DRAG * DT < |(a : K) * DT| := by
  rcases h with h | h
  · left
    rw [h]
    simp
  · right
    have hc : (4000 : K) ≤ |(a : K)| := by
      have h' : ((4000 : Int) : K) ≤ ((|a| : Int) : K) := Int.cast_le.2 h
      simpa using h'
    have hdt : (0 : K) < DT := by
      simp only [DT, POLL_RATE]
      norm_num
    rw [abs_mul, abs_of_pos hdt]
    have : MOUSE_MOVE_DRAG * DT < 4000 * (DT : K) := by
      simp only [MOUSE_MOVE_DRAG]
      nlinarith
    nlinarith

omit [FloorRing K] in
theorem accel_components (k : Nat) (da : Int × Int)
    (hk : mapFind MOUSE_MOVE_KEYS k = some da) :
    ((da.1 : K) * DT = 0 ∨ MOUSE_MOVE_DRAG * DT < |(da.1 : K) * DT|) ∧
    ((da.2 : K) * DT = 0 ∨ MOUSE_MOVE_DRAG * DT < |(da.2 : K) * DT|) := by
  rcases move_key_vector k da hk with ⟨h1, h2⟩ | ⟨h1, h2⟩
  · exact ⟨accel_component _ (Or.inl h1), accel_component _ (Or.inr h2)⟩
  · exact ⟨accel_component _ (Or.inr h2), accel_component _ (Or.inl h1)⟩

omit [FloorRing K] in
/-- Mouse mode at rest satisfies the invariant of single-key runs. -/
theorem singleKeyInv_of_atRest (decay : K) (hd0 : 0 < decay) (hd1 : decay < 1) (k : Nat)
    (da : Int × Int) (hk : mapFind MOUSE_MOVE_KEYS k = some da) (s : Loop K)
    (h : AtRest s) : SingleKeyInv decay k da s := by
  obtain ⟨hwf, hheld, hflags, hx, hy⟩ := h
  obtain ⟨h1, h2⟩ := accel_components (K := K) k da hk
  refine ⟨⟨hwf, hheld, fun it hit _ => hflags it hit⟩, ?_, ?_⟩
  · rw [hx]
    exact axisInv_of_zero decay _ h1 hd0 hd1
  · rw [hy]
    exact axisInv_of_zero decay _ h2 hd0 hd1

/-- The integrator when at most the key `k` is flagged as held. -/
theorem integrate_single (decay : K) (k : Nat) (da : Int × Int)
    (hk : mapFind MOUSE_MOVE_KEYS k = some da) (s : Loop K) (h : OthersIdle k s) :
    ∃ s1, integrate decay s = .ok s1 ∧ s1.move_keys_held = s.move_keys_held ∧
      s1.modifier_held = s.modifier_held ∧
      s1.vx = nextVelocity decay s.vx
        (if mapFind s.move_keys_held k = some true then (da.1 : K) * DT else 0) ∧
      s1.vy = nextVelocity decay s.vy
        (if mapFind s.move_keys_held k = some true then (da.2 : K) * DT else 0) := by
  have hacc := acceleration_single (K := K) k da hk s.move_keys_held
    (wellFormed_nodup s h.1) h.2.2 (0, 0)
  unfold integrate
  rw [hacc]
  by_cases hf : mapFind s.move_keys_held k = some true
  · simp only [hf, if_true, zero_add]
    exact ⟨_, rfl, rfl, rfl, rfl, rfl⟩
  · simp only [hf, if_false]
    exact ⟨_, rfl, rfl, rfl, rfl, rfl⟩

/-- One loop iteration of a single-key run. -/
theorem tick_single (decay : K) (hd0 : 0 < decay) (hd1 : decay < 1) (k : Nat)
    (da : Int × Int) (hk : mapFind MOUSE_MOVE_KEYS k = some da) (s : Loop K)
    (h : SingleKeyInv decay k da s) (b : List input_event)
    (hb : ∀ e ∈ b, e.type = EV_KEY ∧ e.code = k) :
    ∃ s1, tick decay s b = .ok s1 ∧ SingleKeyInv decay k da s1 ∧
      (mapFind s1.move_keys_held k = some true → axisSpeed da s < axisSpeed da s1) ∧
      (mapFind s1.move_keys_held k ≠ some true →
        axisSpeed da s1 ≤ axisSpeed da s ∧
        |s1.vx| ≤ max (|s.vx| - MOUSE_MOVE_DRAG * DT) 0 ∧
        |s1.vy| ≤ max (|s.vy| - MOUSE_MOVE_DRAG * DT) 0) ∧
      ((∀ e ∈ b, e.value ≠ KEY_PRESS) → mapFind s.move_keys_held k = some false →
        mapFind s1.move_keys_held k = some false) := by
  have hmove : isMoveKey k = true := by
    rw [isMoveKey, hk]
    rfl
  obtain ⟨hidle, hax, hay⟩ := h
  obtain ⟨hidle1, hx1, hy1, hflag1⟩ := foldl_only_key k hmove b s hidle hb
  obtain ⟨s1, hint, hkeys, hmod, hvx, hvy⟩ := integrate_single decay k da hk _ hidle1
  rw [hx1] at hvx
  rw [hy1] at hvy
  have hsx := axis_step decay ((da.1 : K) * DT) s.vx hd0 hd1 hax
  have hsy := axis_step decay ((da.2 : K) * DT) s.vy hd0 hd1 hay
  have hvec := move_key_vector k da hk
  have hdt : (DT : K) ≠ 0 := by
    simp only [DT, POLL_RATE]
    norm_num
  refine ⟨{ s1 with t := s1.t + POLL_INTERVAL }, ?_, ?_, ?_, ?_, ?_⟩
  · simp only [tick, endTick, hint]
  · refine ⟨⟨?_, ?_, ?_⟩, ?_, ?_⟩
    · have := hidle1.1
      unfold WellFormed at *
      simpa [hkeys] using this
    · simpa [hmod] using hidle1.2.1
    · simpa [hkeys] using hidle1.2.2
    · show AxisInv decay _ s1.vx
      rw [hvx]
      split
      · exact hsx.1
      · exact hsx.2.1
    · show AxisInv decay _ s1.vy
      rw [hvy]
      split
      · exact hsy.1
      · exact hsy.2.1
  · intro hf
    have hf' : mapFind (List.foldl processEvent s b).move_keys_held k = some true := by
      simpa [hkeys] using hf
    simp only [hf', if_true] at hvx hvy
    unfold axisSpeed
    by_cases h1 : da.1 ≠ 0
    · simp only [h1, if_true, ne_eq, not_false_eq_true]
      show |s.vx| < |s1.vx|
      rw [hvx]
      apply hsx.2.2.1
      intro h0
      rcases mul_eq_zero.1 h0 with h0 | h0
      · exact h1 (by exact_mod_cast h0)
      · exact hdt h0
    · simp only [h1, if_false]
      show |s.vy| < |s1.vy|
      rw [hvy]
      apply hsy.2.2.1
      intro h0
      rcases mul_eq_zero.1 h0 with h0 | h0
      · have h2 : da.2 = 0 := by exact_mod_cast h0
        have h1' : da.1 = 0 := not_not.1 h1
        rcases hvec with ⟨_, hv⟩ | ⟨_, hv⟩
        · rw [h2] at hv
          simp at hv
        · rw [h1'] at hv
          simp at hv
      · exact hdt h0
  · intro hf
    have hf' : ¬ mapFind (List.foldl processEvent s b).move_keys_held k = some true := by
      simpa [hkeys] using hf
    simp only [hf', if_false] at hvx hvy
    have hxl : |s1.vx| ≤ max (|s.vx| - MOUSE_MOVE_DRAG * DT) 0 := by
      rw [hvx]
      exact hsx.2.2.2.2.1
    have hyl : |s1.vy| ≤ max (|s.vy| - MOUSE_MOVE_DRAG * DT) 0 := by
      rw [hvy]
      exact hsy.2.2.2.2.1
    refine ⟨?_, hxl, hyl⟩
    unfold axisSpeed
    split
    · exact le_trans hxl hsx.2.2.2.2.2
    · exact le_trans hyl hsy.2.2.2.2.2
  · intro hnp hflag
    have := hflag1 hnp hflag
    simpa [hkeys] using this

/-- A single-key run from a state of the invariant goes on and keeps it. -/
theorem mainLoop_single (decay : K) (hd0 : 0 < decay) (hd1 : decay < 1) (k : Nat)
    (da : Int × Int) (hk : mapFind MOUSE_MOVE_KEYS k = some da)
    (batches : List (List input_event)) :
    ∀ s : Loop K, SingleKeyInv decay k da s → OnlyKey k batches →
      ∃ s1, mainLoop decay s batches = .ok s1 ∧ SingleKeyInv decay k da s1 := by
  induction batches with
  | nil =>
    intro s h _
    exact ⟨s, rfl, h⟩
  | cons b rest ih =>
    intro s h hb
    obtain ⟨s1, h1, hinv, -⟩ :=
      tick_single decay hd0 hd1 k da hk s h b (hb b (List.mem_cons_self _ _))
    obtain ⟨s2, h2, hinv2⟩ := ih s1 hinv (fun b' hb' => hb b' (List.mem_cons_of_mem _ hb'))
    exact ⟨s2, by simp only [mainLoop, h1, h2], hinv2⟩

/-- After the release, with no further press, each tick takes the drag off
the speed of each axis until it is zero. -/
theorem mainLoop_released (decay : K) (hd0 : 0 < decay) (hd1 : decay < 1) (k : Nat)
    (da : Int × Int) (hk : mapFind MOUSE_MOVE_KEYS k = some da)
    (cs : List (List input_event)) :
    ∀ s : Loop K, SingleKeyInv decay k da s → mapFind s.move_keys_held k = some false →
      OnlyKeyNoPress k cs →
      ∃ s1, mainLoop decay s cs = .ok s1 ∧ mapFind s1.move_keys_held k = some false ∧
        |s1.vx| ≤ max (|s.vx| - (cs.length : K) * (MOUSE_MOVE_DRAG * DT)) 0 ∧
        |s1.vy| ≤ max (|s.vy| - (cs.length : K) * (MOUSE_MOVE_DRAG * DT)) 0 := by
  have hdv : (0 : K) < MOUSE_MOVE_DRAG * DT := dragStep_pos
  have hstep : ∀ (u w : K) (n : Nat), w ≤ max (u - MOUSE_MOVE_DRAG * DT) 0 →
      max (w - (n : K) * (MOUSE_MOVE_DRAG * DT)) 0 ≤
        max (u - ((n + 1 : Nat) : K) * (MOUSE_MOVE_DRAG * DT)) 0 := by
    intro u w n hw
    have hn : (0 : K) ≤ (n : K) * (MOUSE_MOVE_DRAG * DT) :=
      mul_nonneg (Nat.cast_nonneg n) hdv.le
    apply max_le _ (le_max_right _ _)
    rcases le_total (u - MOUSE_MOVE_DRAG * DT) 0 with h | h
    · rw [max_eq_right h] at hw
      exact le_trans (by linarith) (le_max_right _ _)
    · rw [max_eq_left h] at hw
      refine le_trans ?_ (le_max_left _ _)
      push_cast
      linarith
  induction cs with
  | nil =>
    intro s _ hflag _
    exact ⟨s, rfl, hflag, by simp, by simp⟩
  | cons b rest ih =>
    intro s h hflag hb
    have hb0 := hb b (List.mem_cons_self _ _)
    obtain ⟨s1, h1, hinv, -, hun, hkeep⟩ :=
      tick_single decay hd0 hd1 k da hk s h b (fun e he => ⟨(hb0 e he).1, (hb0 e he).2.1⟩)
    have hflag1 := hkeep (fun e he => (hb0 e he).2.2) hflag
    obtain ⟨-, hx, hy⟩ := hun (by rw [hflag1]; simp)
    obtain ⟨s2, h2, hflag2, hx2, hy2⟩ :=
      ih s1 hinv hflag1 (fun b' hb' => hb b' (List.mem_cons_of_mem _ hb'))
    refine ⟨s2, by simp only [mainLoop, h1, h2], hflag2, ?_, ?_⟩
    · exact le_trans hx2 (by simpa using hstep |s.vx| |s1.vx| rest.length hx)
    · exact le_trans hy2 (by simpa using hstep |s.vy| |s1.vy| rest.length hy)

/-- Under the invariant the speed of an axis is below the drag of `stopTicks`
ticks. -/
theorem axis_stops (decay acc v : K) (n : Nat) (h : AxisInv decay acc v)
    (hn : stopTicks decay acc ≤ n) (w : K)
    (hw : |w| ≤ max (|v| - (n : K) * (MOUSE_MOVE_DRAG * DT)) 0) : w = 0 := by
  have hdv : (0 : K) < MOUSE_MOVE_DRAG * DT := dragStep_pos
  have hle : |v| - (n : K) * (MOUSE_MOVE_DRAG * DT) ≤ 0 := by
    rcases h with ⟨_, hv⟩ | ⟨_, _, hlt⟩
    · rw [hv, abs_zero]
      have : (0 : K) ≤ (n : K) * (MOUSE_MOVE_DRAG * DT) :=
        mul_nonneg (Nat.cast_nonneg n) hdv.le
      linarith
    · have h1 : terminalSpeed decay acc / (MOUSE_MOVE_DRAG * DT) ≤ (n : K) :=
        Nat.ceil_le.1 hn
      have h2 : terminalSpeed decay acc ≤ (n : K) * (MOUSE_MOVE_DRAG * DT) :=
        (div_le_iff₀ hdv).1 h1
      linarith
  rw [max_eq_right hle] at hw
  exact abs_eq_zero.1 (le_antisymm hw (abs_nonneg w))

/-- C10: in exact arithmetic, in a run from rest in mouse mode whose events are
all events of one movement key: every tick returns; on a tick at which the key
is flagged as held the speed on the key's axis is greater after the tick than
before; on a tick at which it is not, the speed does not increase; and once the
key is released, after stopBound ticks without a press (a number fixed by the
tick duration, the drag, the decay factor and the key's acceleration) the
velocity is exactly 0 and stays 0. -/
theorem single_key_velocity_profile (decay : K) (hd0 : 0 < decay) (hd1 : decay < 1)
    (k : Nat) (da : Int × Int) (hk : mapFind MOUSE_MOVE_KEYS k = some da) (s0 : Loop K)
    (hrest : AtRest s0) (batches : List (List input_event)) (hb : OnlyKey k batches) :
    ∃ s, mainLoop decay s0 batches = .ok s ∧
      (∀ b, OnlyKey k [b] → ∃ s1 held, tick decay s b = .ok s1 ∧
        mapFind s1.move_keys_held k = some held ∧
        (held = true → axisSpeed da s < axisSpeed da s1) ∧
        (held = false → axisSpeed da s1 ≤ axisSpeed da s)) ∧
      (mapFind s.move_keys_held k = some false →
        ∀ cs, OnlyKeyNoPress k cs →
          ∃ s2, mainLoop decay s cs = .ok s2 ∧ mapFind s2.move_keys_held k = some false ∧
            axisSpeed da s2 ≤ axisSpeed da s ∧
            (stopBound decay da ≤ cs.length → s2.vx = 0 ∧ s2.vy = 0)) := by
  have hinv0 := singleKeyInv_of_atRest decay hd0 hd1 k da hk s0 hrest
  obtain ⟨s, hs, hinv⟩ := mainLoop_single decay hd0 hd1 k da hk batches s0 hinv0 hb
  have hmove : isMoveKey k = true := by
    rw [isMoveKey, hk]
    rfl
  refine ⟨s, hs, ?_, ?_⟩
  · intro b hb1
    obtain ⟨s1, h1, hinv1, hup, hdown, -⟩ :=
      tick_single decay hd0 hd1 k da hk s hinv b (hb1 b (List.mem_singleton_self b))
    have hsome := mapFind_of_wellFormed s1 hinv1.1.1 k
    rw [hmove] at hsome
    obtain ⟨held, hheld⟩ := Option.isSome_iff_exists.1 hsome
    refine ⟨s1, held, h1, hheld, ?_, ?_⟩
    · intro ht
      exact hup (by rw [hheld, ht])
    · intro hf
      exact (hdown (by rw [hheld, hf]; simp)).1
  · intro hflag cs hcs
    obtain ⟨s2, h2, hflag2, hx, hy⟩ :=
      mainLoop_released decay hd0 hd1 k da hk cs s hinv hflag hcs
    have hdrop : ∀ u : K, 0 ≤ u →
        max (u - (cs.length : K) * (MOUSE_MOVE_DRAG * DT)) 0 ≤ u := by
      intro u hu
      have hn : (0 : K) ≤ (cs.length : K) * (MOUSE_MOVE_DRAG * DT) :=
        mul_nonneg (Nat.cast_nonneg _) dragStep_pos.le
      exact max_le (by linarith) hu
    refine ⟨s2, h2, hflag2, ?_, ?_⟩
    · unfold axisSpeed
      split
      · exact le_trans hx (hdrop _ (abs_nonneg _))
      · exact le_trans hy (hdrop _ (abs_nonneg _))
    · intro hlen
      have hnx : stopTicks decay ((da.1 : K) * DT) ≤ cs.length :=
        le_trans (le_max_left _ _) hlen
      have hny : stopTicks decay ((da.2 : K) * DT) ≤ cs.length :=
        le_trans (le_max_right _ _) hlen
      exact ⟨axis_stops decay _ s.vx cs.length hinv.2.1 hnx s2.vx hx,
        axis_stops decay _ s.vy cs.length hinv.2.2 hny s2.vy hy⟩

end SingleKeyRuns

theorem atRest_sampleHeld : AtRest sampleHeld :=
  ⟨by decide, rfl, by decide, rfl, rfl⟩

theorem single_key_velocity_profile_witness :
    ∃ s, mainLoop (1 / 2 : ℚ) sampleHeld
        [[sampleEvent EV_KEY KEY_T 1], [], [sampleEvent EV_KEY KEY_T 0]] = .ok s ∧
      (∀ b, OnlyKey KEY_T [b] → ∃ s1 held, tick (1 / 2 : ℚ) s b = .ok s1 ∧
        mapFind s1.move_keys_held KEY_T = some held ∧
        (held = true → axisSpeed (12000, 0) s < axisSpeed (12000, 0) s1) ∧
        (held = false → axisSpeed (12000, 0) s1 ≤ axisSpeed (12000, 0) s)) ∧
      (mapFind s.move_keys_held KEY_T = some false →
        ∀ cs, OnlyKeyNoPress KEY_T cs →
          ∃ s2, mainLoop (1 / 2 : ℚ) s cs = .ok s2 ∧
            mapFind s2.move_keys_held KEY_T = some false ∧
            axisSpeed (12000, 0) s2 ≤ axisSpeed (12000, 0) s ∧
            (stopBound (1 / 2 : ℚ) (12000, 0) ≤ cs.length → s2.vx = 0 ∧ s2.vy = 0)) :=
  single_key_velocity_profile (1 / 2 : ℚ) (by norm_num) (by norm_num) KEY_T (12000, 0)
    (by decide) sampleHeld atRest_sampleHeld
    [[sampleEvent EV_KEY KEY_T 1], [], [sampleEvent EV_KEY KEY_T 0]] (by decide)

/-! ## Capability negotiation -/

/-- The operation that `_convert_to_uinput_ev` returns is the one of
`codeFamilies`, and -1 stands for a type outside `codeFamilies`. -/
theorem convert_eq_family (ev : Nat) :
    mapFind codeFamilies ev =
      if Device._convert_to_uinput_ev ev = -1 then none
      else some (Device._convert_to_uinput_ev ev) := by
  unfold Device._convert_to_uinput_ev
  simp only [codeFamilies, mapFind]
  by_cases h1 : ev = EV_KEY
  · subst h1; decide
  by_cases h2 : ev = EV_REL
  · subst h2; decide
  by_cases h3 : ev = EV_ABS
  · subst h3; decide
  by_cases h4 : ev = EV_MSC
  · subst h4; decide
  by_cases h5 : ev = EV_LED
  · subst h5; decide
  by_cases h6 : ev = EV_SND
  · subst h6; decide
  by_cases h7 : ev = EV_FF
  · subst h7; decide
  by_cases h8 : ev = EV_SW
  · subst h8; decide
  have e1 : ¬ EV_KEY = ev := fun h => h1 h.symm
  have e2 : ¬ EV_REL = ev := fun h => h2 h.symm
  have e3 : ¬ EV_ABS = ev := fun h => h3 h.symm
  have e4 : ¬ EV_MSC = ev := fun h => h4 h.symm
  have e5 : ¬ EV_LED = ev := fun h => h5 h.symm
  have e6 : ¬ EV_SND = ev := fun h => h6 h.symm
  have e7 : ¬ EV_FF = ev := fun h => h7 h.symm
  have e8 : ¬ EV_SW = ev := fun h => h8 h.symm
  simp [h1, h2, h3, h4, h5, h6, h7, h8, e1, e2, e3, e4, e5, e6, e7, e8]

/-- The test of the loops reads the bit that the specification means. -/
theorem getBit_eq_bitIsSet (bitset : Nat → Nat) (i : Nat) :
    getBit bitset i = bitIsSet bitset i := by
  simp only [getBit, bitIsSet, CHAR_BIT_SZ, Nat.testBit, Nat.land_comm]

/-- The inner loop when the sink accepts every call. -/
theorem setKeyBits_all_ok (sink_ok : SinkIoctl → Bool) (hok : ∀ c, sink_ok c = true)
    (ui_ev : Int) (ev : Nat) (key_bitset : Nat → Nat) (keys : List Nat) :
    ∀ st : Setup, setKeyBits sink_ok ui_ev ev key_bitset keys st =
      { st with issued := st.issued ++ codeDeclarations ui_ev key_bitset keys } := by
  induction keys with
  | nil =>
    intro st
    simp [setKeyBits, codeDeclarations]
  | cons key rest ih =>
    intro st
    have hspec := getBit_eq_bitIsSet key_bitset key
    by_cases hbit : getBit key_bitset key = true
    · rw [hbit] at hspec
      simp [setKeyBits, hbit, hok, ih, codeDeclarations, ← hspec]
    · have hbit' : getBit key_bitset key = false := by simpa using hbit
      rw [hbit'] at hspec
      simp [setKeyBits, hbit', ih, codeDeclarations, ← hspec]

/-- The outer loop when every call succeeds. -/
theorem setEventBits_all_ok (source : Source) (sink_ok : SinkIoctl → Bool)
    (E : Nat → Nat) (Kev : Nat → Nat → Nat) (hK : ∀ ev, source.key_bitset ev = some (Kev ev))
    (hok : ∀ c, sink_ok c = true) (evs : List Nat) :
    ∀ st : Setup, st.error = none → setEventBits source sink_ok E evs st =
      { issued := st.issued ++ evs.flatMap (typeDeclarations E Kev)
        queried := st.queried ++ evs.filter (codesQueried E)
        error := none } := by
  induction evs with
  | nil =>
    intro st hst
    cases st
    simp_all [setEventBits]
  | cons ev rest ih =>
    intro st hst
    have hspec := getBit_eq_bitIsSet E ev
    by_cases hbit : getBit E ev = true
    · rw [hbit] at hspec
      by_cases hconv : Device._convert_to_uinput_ev ev = -1
      · have hfam : mapFind codeFamilies ev = none := by
          rw [convert_eq_family, if_pos hconv]
        simp only [setEventBits, hbit, hok, hconv, if_true, Bool.true_eq_false, if_false]
        rw [ih]
        · simp [typeDeclarations, codesQueried, ← hspec, hfam]
        · exact hst
      · have hfam : mapFind codeFamilies ev = some (Device._convert_to_uinput_ev ev) := by
          rw [convert_eq_family, if_neg hconv]
        simp only [setEventBits, hbit, hok, hconv, hK, if_true, Bool.true_eq_false, if_false,
          setKeyBits_all_ok sink_ok hok, hst, Option.isSome_none, Bool.false_eq_true]
        rw [ih]
        · simp [typeDeclarations, codesQueried, ← hspec, hfam]
        · rfl
    · have hbit' : getBit E ev = false := by simpa using hbit
      rw [hbit'] at hspec
      simp only [setEventBits, hbit', if_true]
      rw [ih st hst]
      simp [typeDeclarations, codesQueried, ← hspec]

/-- The method copy_setup_from when every call succeeds. -/
theorem copy_setup_from_all_ok (source : Source) (sink_ok : SinkIoctl → Bool)
    (E : Nat → Nat) (Kev : Nat → Nat → Nat) (hE : source.ev_bitset = some E)
    (hK : ∀ ev, source.key_bitset ev = some (Kev ev)) (hok : ∀ c, sink_ok c = true) :
    Device.copy_setup_from source sink_ok Setup.start =
      { issued := expectedDeclarations E Kev, queried := expectedQueries E, error := none } := by
  unfold Device.copy_setup_from
  simp only [hE]
  rw [setEventBits_all_ok source sink_ok E Kev hK hok (List.range EV_CNT) _ rfl]
  simp [Setup.start, expectedDeclarations, expectedQueries]

theorem mem_codeDeclarations (op : Int) (key_bitset : Nat → Nat) (n : Nat) (c : SinkIoctl)
    (h : c ∈ codeDeclarations op key_bitset (List.range n)) :
    ∃ key, key < n ∧ bitIsSet key_bitset key = true ∧ c = SinkIoctl.setBit op key := by
  simp only [codeDeclarations, List.mem_map, List.mem_filter, List.mem_range] at h
  obtain ⟨key, ⟨hlt, hbit⟩, hc⟩ := h
  exact ⟨key, hlt, hbit, hc.symm⟩

/-- Every declaration owed is of a type or code whose bit is set on the source. -/
theorem expectedDeclarations_onSource (E : Nat → Nat) (Kev : Nat → Nat → Nat) (c : SinkIoctl)
    (h : c ∈ expectedDeclarations E Kev) : OnSource E Kev c := by
  simp only [expectedDeclarations, List.mem_flatMap, List.mem_range] at h
  obtain ⟨ev, hev, hc⟩ := h
  unfold typeDeclarations at hc
  by_cases hbit : bitIsSet E ev = true
  · simp only [hbit, if_true, List.mem_cons] at hc
    rcases hc with hc | hc
    · rw [hc]
      exact Or.inl ⟨rfl, hev, hbit⟩
    · cases hfam : mapFind codeFamilies ev with
      | none =>
        rw [hfam] at hc
        simp at hc
      | some op =>
        rw [hfam] at hc
        obtain ⟨key, hlt, hkey, hc'⟩ := mem_codeDeclarations op (Kev ev) KEY_CNT c hc
        rw [hc']
        exact Or.inr ⟨ev, hev, hbit, hfam, hlt, hkey⟩
  · simp [hbit] at hc

theorem codeFamilies_not_evbit (ev : Nat) : mapFind codeFamilies ev ≠ some UI_SET_EVBIT := by
  intro h
  have hall : ∀ p ∈ codeFamilies, p.2 ≠ UI_SET_EVBIT := by decide
  exact hall _ (mem_of_mapFind _ _ _ h) rfl

/-- Every declaration of a type or code whose bit is set on the source is
among the declarations owed. -/
theorem mem_expectedDeclarations_of_onSource (E : Nat → Nat) (Kev : Nat → Nat → Nat)
    (c : SinkIoctl) (h : OnSource E Kev c) : c ∈ expectedDeclarations E Kev := by
  cases c with
  | setBit request arg =>
    simp only [expectedDeclarations, List.mem_flatMap, List.mem_range]
    rcases h with ⟨hreq, hlt, hbit⟩ | ⟨ev, hev, hbit, hfam, hlt, hkey⟩
    · refine ⟨arg, hlt, ?_⟩
      simp [typeDeclarations, hbit, hreq]
    · refine ⟨ev, hev, ?_⟩
      simp only [typeDeclarations, hbit, if_true, hfam, List.mem_cons]
      right
      simp only [codeDeclarations, List.mem_map, List.mem_filter, List.mem_range]
      exact ⟨arg, ⟨hlt, hkey⟩, rfl⟩
  | devSetup data => exact absurd h (by simp [OnSource])
  | devCreate => exact absurd h (by simp [OnSource])

/-- Two event types with the same set-code-bit operation are the same. -/
theorem codeFamilies_injective (ev1 ev2 : Nat) (op : Int)
    (h1 : mapFind codeFamilies ev1 = some op) (h2 : mapFind codeFamilies ev2 = some op) :
    ev1 = ev2 := by
  have hall : ∀ p ∈ codeFamilies, ∀ q ∈ codeFamilies, p.2 = q.2 → p.1 = q.1 := by decide
  exact hall _ (mem_of_mapFind _ _ _ h1) _ (mem_of_mapFind _ _ _ h2) rfl

/-- The members of the declarations owed for one event type. -/
theorem mem_typeDeclarations (E : Nat → Nat) (Kev : Nat → Nat → Nat) (ev : Nat) (c : SinkIoctl)
    (h : c ∈ typeDeclarations E Kev ev) :
    c = SinkIoctl.setBit UI_SET_EVBIT ev ∨
    ∃ op key, mapFind codeFamilies ev = some op ∧ c = SinkIoctl.setBit op key := by
  unfold typeDeclarations at h
  by_cases hbit : bitIsSet E ev = true
  · simp only [hbit, if_true, List.mem_cons] at h
    rcases h with h | h
    · exact Or.inl h
    · cases hfam : mapFind codeFamilies ev with
      | none =>
        rw [hfam] at h
        simp at h
      | some op =>
        rw [hfam] at h
        obtain ⟨key, -, -, hc⟩ := mem_codeDeclarations op (Kev ev) KEY_CNT c h
        exact Or.inr ⟨op, key, rfl, hc⟩
  · simp [hbit] at h

/-- No declaration is owed twice. -/
theorem expectedDeclarations_nodup (E : Nat → Nat) (Kev : Nat → Nat → Nat) :
    (expectedDeclarations E Kev).Nodup := by
  unfold expectedDeclarations
  rw [List.nodup_flatMap]
  constructor
  · intro ev _
    unfold typeDeclarations
    by_cases hbit : bitIsSet E ev = true
    · simp only [hbit, if_true, List.nodup_cons]
      cases hfam : mapFind codeFamilies ev with
      | none => simp
      | some op =>
        constructor
        · intro hmem
          obtain ⟨key, -, -, hc⟩ := mem_codeDeclarations op (Kev ev) KEY_CNT _ hmem
          simp only [SinkIoctl.setBit.injEq] at hc
          exact codeFamilies_not_evbit ev (by rw [hfam, hc.1])
        · unfold codeDeclarations
          apply List.Nodup.map
          · intro k1 k2 hk
            simpa using hk
          · exact List.Nodup.filter _ (List.nodup_range KEY_CNT)
    · simp [hbit]
  · refine List.Pairwise.imp ?_ (List.nodup_range EV_CNT)
    intro ev1 ev2 hne
    show List.Disjoint (typeDeclarations E Kev ev1) (typeDeclarations E Kev ev2)
    intro c h1 h2
    rcases mem_typeDeclarations E Kev ev1 c h1 with hc1 | ⟨op1, key1, hf1, hc1⟩ <;>
      rcases mem_typeDeclarations E Kev ev2 c h2 with hc2 | ⟨op2, key2, hf2, hc2⟩
    · rw [hc1] at hc2
      simp only [SinkIoctl.setBit.injEq, true_and] at hc2
      exact hne hc2
    · rw [hc1] at hc2
      simp only [SinkIoctl.setBit.injEq] at hc2
      exact codeFamilies_not_evbit ev2 (by rw [hf2, hc2.1])
    · rw [hc1] at hc2
      simp only [SinkIoctl.setBit.injEq] at hc2
      exact codeFamilies_not_evbit ev1 (by rw [hf1, hc2.1])
    · rw [hc1] at hc2
      simp only [SinkIoctl.setBit.injEq] at hc2
      exact hne (codeFamilies_injective ev1 ev2 op1 hf1 (by rw [hf2, hc2.1]))

/-- C11: when every ioctl succeeds, copy_setup_from issues on the sink exactly
the declarations owed for the source's event-type bits E and code bits K_ev, in
order and none twice: a declaration is issued if and only if it is the
UI_SET_EVBIT of a type whose bit is set in E, or the declaration, by the
operation of one of the eight code families, of a code whose bit is set in the
K_ev of a type of that family whose bit is set in E. Codes are asked of the
source for exactly the set types of the eight families, the types for which
_convert_to_uinput_ev does not return -1. -/
theorem copy_setup_from_declares_source_bits (source : Source) (sink_ok : SinkIoctl → Bool)
    (E : Nat → Nat) (Kev : Nat → Nat → Nat) (hE : source.ev_bitset = some E)
    (hK : ∀ ev, source.key_bitset ev = some (Kev ev)) (hok : ∀ c, sink_ok c = true) :
    Device.copy_setup_from source sink_ok Setup.start =
      { issued := expectedDeclarations E Kev, queried := expectedQueries E, error := none } ∧
    (∀ c, c ∈ (Device.copy_setup_from source sink_ok Setup.start).issued ↔ OnSource E Kev c) ∧
    (Device.copy_setup_from source sink_ok Setup.start).issued.Nodup ∧
    (∀ ev, ev < EV_CNT → (E (ev / 8)).testBit (ev % 8) = true →
      SinkIoctl.setBit UI_SET_EVBIT ev ∈
        (Device.copy_setup_from source sink_ok Setup.start).issued) ∧
    (∀ ev op key, ev < EV_CNT → (E (ev / 8)).testBit (ev % 8) = true →
      (ev, op) ∈ codeFamilies → key < KEY_CNT → (Kev ev (key / 8)).testBit (key % 8) = true →
      SinkIoctl.setBit op key ∈ (Device.copy_setup_from source sink_ok Setup.start).issued) ∧
    (∀ ev, ev ∈ ((Device.copy_setup_from source sink_ok Setup.start).queried).tail ↔
      ev < EV_CNT ∧ (E (ev / 8)).testBit (ev % 8) = true ∧
        Device._convert_to_uinput_ev ev ≠ -1) ∧
    (∀ ev, Device._convert_to_uinput_ev ev ≠ -1 ↔
      (ev, Device._convert_to_uinput_ev ev) ∈ codeFamilies) := by
  have hrun := copy_setup_from_all_ok source sink_ok E Kev hE hK hok
  have hfind : ∀ ev op, (ev, op) ∈ codeFamilies → mapFind codeFamilies ev = some op := by
    intro ev op hmem
    have hsome : (mapFind codeFamilies ev).isSome = true :=
      (mapFind_isSome_iff _ _).2 (List.mem_map_of_mem Prod.fst hmem)
    obtain ⟨op', hop'⟩ := Option.isSome_iff_exists.1 hsome
    have hall : ∀ p ∈ codeFamilies, ∀ q ∈ codeFamilies, p.1 = q.1 → p.2 = q.2 := by decide
    have := hall _ hmem _ (mem_of_mapFind _ _ _ hop') rfl
    rw [hop']
    exact congrArg some this.symm
  rw [hrun]
  refine ⟨rfl, fun c => ⟨expectedDeclarations_onSource E Kev c,
    mem_expectedDeclarations_of_onSource E Kev c⟩, expectedDeclarations_nodup E Kev, ?_, ?_, ?_, ?_⟩
  · intro ev hev hbit
    exact mem_expectedDeclarations_of_onSource E Kev _ (Or.inl ⟨rfl, hev, hbit⟩)
  · intro ev op key hev hbit hfam hkey hkbit
    exact mem_expectedDeclarations_of_onSource E Kev _
      (Or.inr ⟨ev, hev, hbit, hfind ev op hfam, hkey, hkbit⟩)
  · intro ev
    have hconv := convert_eq_family ev
    simp only [expectedQueries, List.tail_cons, List.mem_filter, List.mem_range, codesQueried,
      Bool.and_eq_true, bitIsSet]
    constructor
    · rintro ⟨hev, hbit, hfam⟩
      refine ⟨hev, hbit, ?_⟩
      intro h
      rw [if_pos h] at hconv
      rw [hconv] at hfam
      simp at hfam
    · rintro ⟨hev, hbit, h⟩
      rw [if_neg h] at hconv
      exact ⟨hev, hbit, by rw [hconv]; rfl⟩
  · intro ev
    have hconv := convert_eq_family ev
    constructor
    · intro h
      rw [if_neg h] at hconv
      exact mem_of_mapFind _ _ _ hconv
    · intro hmem h
      have := hfind ev _ hmem
      rw [hconv, if_pos h] at this
      simp at this

set_option maxRecDepth 100000 in
theorem expected_for_sample :
    expectedDeclarations sampleTypes sampleCodes =
      [ SinkIoctl.setBit UI_SET_EVBIT EV_SYN, SinkIoctl.setBit UI_SET_EVBIT EV_KEY,
        SinkIoctl.setBit UI_SET_KEYBIT KEY_TAB, SinkIoctl.setBit UI_SET_KEYBIT KEY_T ] ∧
    expectedQueries sampleTypes = [0, EV_KEY] := by
  constructor <;> rfl

theorem copy_setup_from_declares_source_bits_witness :
    Device.copy_setup_from sampleSource (fun _ => true) Setup.start =
      { issued := [ SinkIoctl.setBit UI_SET_EVBIT EV_SYN, SinkIoctl.setBit UI_SET_EVBIT EV_KEY,
                    SinkIoctl.setBit UI_SET_KEYBIT KEY_TAB, SinkIoctl.setBit UI_SET_KEYBIT KEY_T ]
        queried := [0, EV_KEY]
        error := none } :=
  (copy_setup_from_declares_source_bits sampleSource (fun _ => true) sampleTypes sampleCodes
    rfl (fun _ => rfl) (fun _ => rfl)).1.trans
    (by rw [expected_for_sample.1, expected_for_sample.2])


theorem setup_ioctl_ok (st : Setup) (sink_ok : SinkIoctl → Bool) (hok : ∀ c, sink_ok c = true)
    (call : SinkIoctl) (message : String) (hst : st.error = none) :
    st.ioctl sink_ok call message = { st with issued := st.issued ++ [call] } := by
  simp [Setup.ioctl, hst, hok]

theorem setup_data_keyboard_mouse :
    UIDevice.setup_data "Keyboard Mouse".toList = some keyboardMouseSetup := by
  decide

/-- The method set_up_mouse when the sink accepts every call. -/
theorem set_up_mouse_all_ok (sink_ok : SinkIoctl → Bool) (hok : ∀ c, sink_ok c = true)
    (st : Setup) (hst : st.error = none) :
    Device.set_up_mouse sink_ok st =
      some { st with issued := st.issued ++ mouseDeclarations ++
        [SinkIoctl.devSetup keyboardMouseSetup, SinkIoctl.devCreate] } := by
  unfold Device.set_up_mouse UIDevice.create
  rw [setup_data_keyboard_mouse]
  simp [setup_ioctl_ok, hok, hst, mouseDeclarations]

/-- The whole sink preparation when every call succeeds. -/
theorem prepareSink_all_ok (source : Source) (sink_ok : SinkIoctl → Bool)
    (E : Nat → Nat) (Kev : Nat → Nat → Nat) (hE : source.ev_bitset = some E)
    (hK : ∀ ev, source.key_bitset ev = some (Kev ev)) (hok : ∀ c, sink_ok c = true) :
    prepareSink source sink_ok =
      some { issued := expectedDeclarations E Kev ++ mouseDeclarations ++
               [SinkIoctl.devSetup keyboardMouseSetup, SinkIoctl.devCreate]
             queried := expectedQueries E
             error := none } := by
  have hrun := copy_setup_from_all_ok source sink_ok E Kev hE hK hok
  unfold prepareSink
  simp only [hrun, Option.isSome_none, Bool.false_eq_true, if_false]
  rw [set_up_mouse_all_ok sink_ok hok _ rfl]

/-- The claim C12 as stated fails: for a keyboard with the types EV_SYN and
EV_KEY only, the prepared sink has the type EV_REL declared. -/
theorem sink_preparation_only_source_bits_counterexample :
    ¬ (∀ (source : Source) (sink_ok : SinkIoctl → Bool) (E : Nat → Nat) (Kev : Nat → Nat → Nat),
        source.ev_bitset = some E → (∀ ev, source.key_bitset ev = some (Kev ev)) →
        (∀ c, sink_ok c = true) → ∀ st, prepareSink source sink_ok = some st →
        ∀ request arg, SinkIoctl.setBit request arg ∈ st.issued →
          OnSource E Kev (SinkIoctl.setBit request arg)) := by
  intro h
  have hprep := prepareSink_all_ok sampleSource (fun _ => true) sampleTypes sampleCodes rfl
    (fun _ => rfl) (fun _ => rfl)
  have hrel := h sampleSource (fun _ => true) sampleTypes sampleCodes rfl (fun _ => rfl)
    (fun _ => rfl) _ hprep UI_SET_EVBIT EV_REL (by simp [mouseDeclarations])
  rcases hrel with ⟨-, -, hbit⟩ | ⟨ev, -, -, hfam, -⟩
  · exact absurd hbit (by decide)
  · exact codeFamilies_not_evbit ev hfam

/-- C12, amended: when every ioctl succeeds the sink preparation issues the
declarations of copy_setup_from, each of a type or code whose bit is set on
the source, then the seven declarations of set_up_mouse (EV_KEY with BTN_LEFT,
BTN_MIDDLE, BTN_RIGHT and EV_REL with REL_X, REL_Y) whatever the source
supports, then the identity record and the creation. -/
theorem sink_preparation_declarations (source : Source) (sink_ok : SinkIoctl → Bool)
    (E : Nat → Nat) (Kev : Nat → Nat → Nat) (hE : source.ev_bitset = some E)
    (hK : ∀ ev, source.key_bitset ev = some (Kev ev)) (hok : ∀ c, sink_ok c = true) :
    ∃ st, prepareSink source sink_ok = some st ∧ st.error = none ∧
      st.issued = (Device.copy_setup_from source sink_ok Setup.start).issued ++
        mouseDeclarations ++ [SinkIoctl.devSetup keyboardMouseSetup, SinkIoctl.devCreate] ∧
      (∀ c ∈ (Device.copy_setup_from source sink_ok Setup.start).issued, OnSource E Kev c) ∧
      (∀ request arg, SinkIoctl.setBit request arg ∈ st.issued →
        OnSource E Kev (SinkIoctl.setBit request arg) ∨
        SinkIoctl.setBit request arg ∈ mouseDeclarations) := by
  have hrun := copy_setup_from_all_ok source sink_ok E Kev hE hK hok
  refine ⟨_, prepareSink_all_ok source sink_ok E Kev hE hK hok, rfl, by rw [hrun], ?_, ?_⟩
  · rw [hrun]
    exact fun c hc => expectedDeclarations_onSource E Kev c hc
  · intro request arg hmem
    simp only [List.mem_append, List.mem_cons, List.mem_singleton, List.not_mem_nil,
      or_false] at hmem
    rcases hmem with (hmem | hmem) | hmem
    · exact Or.inl (expectedDeclarations_onSource E Kev _ hmem)
    · exact Or.inr hmem
    · rcases hmem with hmem | hmem <;> cases hmem

theorem sink_preparation_declarations_witness :
    ∃ st, prepareSink sampleSource (fun _ => true) = some st ∧ st.error = none ∧
      st.issued = (Device.copy_setup_from sampleSource (fun _ => true) Setup.start).issued ++
        mouseDeclarations ++ [SinkIoctl.devSetup keyboardMouseSetup, SinkIoctl.devCreate] ∧
      (∀ c ∈ (Device.copy_setup_from sampleSource (fun _ => true) Setup.start).issued,
        OnSource sampleTypes sampleCodes c) ∧
      (∀ request arg, SinkIoctl.setBit request arg ∈ st.issued →
        OnSource sampleTypes sampleCodes (SinkIoctl.setBit request arg) ∨
        SinkIoctl.setBit request arg ∈ mouseDeclarations) :=
  sink_preparation_declarations sampleSource (fun _ => true) sampleTypes sampleCodes
    rfl (fun _ => rfl) (fun _ => rfl)

/-! ## The compound relative-motion write -/

/-- When both writes succeed, `try_send_rel` is the `send_rel` of the loop. -/
theorem try_send_rel_eq_send_rel (d : Device) (code : Nat) (value : Int) (hcode : code < 65536) :
    d.try_send_rel (code : Int) value true true = (d.send_rel code value, none) := by
  have h : ((code : Int) % 65536).toNat = code := by omega
  simp [Device.try_send_rel, Device.try_write, Device.send_rel, h]

/-- C13: for an axis code (a 16-bit event code), a value and a sink whose last
written event is e: when both writes succeed send_rel writes the event of type
EV_REL with that code, value and the time of e, then the event of type EV_SYN
with code 0, value 0 and the time of e, and the EV_SYN event becomes the last
written event; when the second write fails the error is raised with the
EV_REL event written; when the first fails nothing is written. -/
theorem send_rel_writes_motion_then_sync (d : Device) (code value : Int)
    (hcode : 0 ≤ code ∧ code < 65536) :
    d.try_send_rel code value true true =
      ({ written := d.written ++
           [ { time := d._last_event.time, type := EV_REL, code := code.toNat, value := value },
             { time := d._last_event.time, type := EV_SYN, code := 0, value := 0 } ]
         _last_event := { time := d._last_event.time, type := EV_SYN, code := 0, value := 0 } },
        none) ∧
    d.try_send_rel code value true false =
      ({ written := d.written ++
           [ { time := d._last_event.time, type := EV_REL, code := code.toNat, value := value } ]
         _last_event :=
           { time := d._last_event.time, type := EV_REL, code := code.toNat, value := value } },
        some "Could not write") ∧
    (∀ os_ok2, d.try_send_rel code value false os_ok2 = (d, some "Could not write")) := by
  have h : (code % 65536).toNat = code.toNat := by omega
  refine ⟨?_, ?_, ?_⟩
  · simp [Device.try_send_rel, Device.try_write, Device.write, h]
  · simp [Device.try_send_rel, Device.try_write, Device.write, h]
  · intro os_ok2
    simp [Device.try_send_rel, Device.try_write]

theorem send_rel_writes_motion_then_sync_witness :
    (sampleSink.write (sampleEvent EV_KEY BTN_LEFT 1)).try_send_rel 1 (-3) true true =
      ({ written := [ sampleEvent EV_KEY BTN_LEFT 1, sampleEvent EV_REL REL_Y (-3),
           sampleEvent EV_SYN 0 0 ]
         _last_event := sampleEvent EV_SYN 0 0 }, none) :=
  (send_rel_writes_motion_then_sync (sampleSink.write (sampleEvent EV_KEY BTN_LEFT 1)) 1 (-3)
    (by decide)).1

/-! ## The identity record -/

/-- The claim C14 as stated fails: a name of 80 characters is not submitted
truncated to 79 characters; the copy runs past the name array. -/
theorem identity_name_truncated_counterexample :
    ¬ (∀ name : List Char, UIDevice.setup_data name =
        some { id := { bustype := BUS_USB, vendor := 0xcccc, product := 0xcccc, version := 0 }
               name := name.take (UINPUT_MAX_NAME_SIZE - 1)
               ff_effects_max := 0 }) := by
  intro h
  have h80 := h (List.replicate 80 (Char.ofNat 97))
  revert h80
  decide

/-- C14, amended: for every display name of at most UINPUT_MAX_NAME_SIZE - 1
characters without a zero character, the identity record that the UIDevice
constructor submits carries the name as given, bus type BUS_USB and vendor
and product identifiers 0xcccc, and with the sink accepting the calls it is
submitted by UI_DEV_SETUP before UI_DEV_CREATE. -/
theorem identity_record_of_short_name (sink_ok : SinkIoctl → Bool) (name : List Char)
    (st : Setup) (hlen : name.length ≤ UINPUT_MAX_NAME_SIZE - 1)
    (hzero : Char.ofNat 0 ∉ name) (hok : ∀ c, sink_ok c = true) (hst : st.error = none) :
    UIDevice.setup_data name =
      some { id := { bustype := BUS_USB, vendor := 0xcccc, product := 0xcccc, version := 0 }
             name := name
             ff_effects_max := 0 } ∧
    UIDevice.create sink_ok name st =
      some { st with issued := st.issued ++
        [ SinkIoctl.devSetup
            { id := { bustype := BUS_USB, vendor := 0xcccc, product := 0xcccc, version := 0 }
              name := name
              ff_effects_max := 0 },
          SinkIoctl.devCreate ] } := by
  have htake : name.takeWhile (fun c => c != Char.ofNat 0) = name := by
    rw [List.takeWhile_eq_self_iff]
    intro c hc
    simp only [bne_iff_ne, ne_eq]
    intro h0
    exact hzero (h0 ▸ hc)
  have hfit : name.length + 1 ≤ UINPUT_MAX_NAME_SIZE := by
    simp only [UINPUT_MAX_NAME_SIZE] at hlen ⊢
    omega
  have hdata : UIDevice.setup_data name =
      some { id := { bustype := BUS_USB, vendor := 0xcccc, product := 0xcccc, version := 0 }
             name := name
             ff_effects_max := 0 } := by
    simp [UIDevice.setup_data, strcpy, htake, hfit]
  refine ⟨hdata, ?_⟩
  unfold UIDevice.create
  rw [hdata]
  simp [setup_ioctl_ok, hok, hst]

theorem identity_record_of_short_name_witness :
    UIDevice.setup_data "Keyboard Mouse".toList = some keyboardMouseSetup :=
  (identity_record_of_short_name (fun _ => true) "Keyboard Mouse".toList Setup.start
    (by decide) (by decide) (fun _ => rfl) rfl).1

/-! ## Drag -/

section DragFacts

variable {K : Type} [LinearOrderedField K]

/-- C15: in exact arithmetic, for every velocity v and drag amount dv at least
0, the result r of _apply_drag has magnitude max (|v| - dv) 0, is never of the
opposite sign to v, is 0 when |v| is at most dv, and is no larger in
magnitude than v. -/
theorem apply_drag_toward_zero (v dv : K) (hdv : 0 ≤ dv) :
    |_apply_drag v dv| = max (|v| - dv) 0 ∧ 0 ≤ _apply_drag v dv * v ∧
    (|v| ≤ dv → _apply_drag v dv = 0) ∧ |_apply_drag v dv| ≤ |v| := by
  have h := nextVelocity_unheld 1 v v dv hdv (mul_self_nonneg v) zero_le_one
  rw [add_zero, mul_one, mul_one] at h
  obtain ⟨habs, hsign⟩ := h
  refine ⟨habs, hsign, ?_, ?_⟩
  · intro hle
    have h0 : max (|v| - dv) 0 = 0 := max_eq_right (by linarith)
    rw [h0] at habs
    exact abs_eq_zero.1 habs
  · rw [habs]
    exact max_le (by linarith) (abs_nonneg v)

end DragFacts

theorem apply_drag_toward_zero_witness :
    |_apply_drag (100 : ℚ) 40| = max (|100| - 40) 0 ∧
    0 ≤ _apply_drag (100 : ℚ) 40 * 100 ∧
    (|(100 : ℚ)| ≤ 40 → _apply_drag (100 : ℚ) 40 = 0) ∧
    |_apply_drag (100 : ℚ) 40| ≤ |100| :=
  apply_drag_toward_zero (100 : ℚ) 40 (by norm_num)

/-! ## Modifier events on the sink -/

theorem modifierPaired_append (w1 w2 : List input_event) (h1 : ModifierPaired w1)
    (h2 : ModifierPaired w2) : ModifierPaired (w1 ++ w2) := by
  induction h1 with
  | nil => exact h2
  | other e rest he _ ih => exact ModifierPaired.other e (rest ++ w2) he ih
  | pair press release rest hp hpv hr hrv ht _ ih =>
    exact ModifierPaired.pair press release (rest ++ w2) hp hpv hr hrv ht ih

theorem modifierPaired_single (e : input_event) (h : isModifierKey e = false) :
    ModifierPaired [e] :=
  ModifierPaired.other e [] h ModifierPaired.nil

theorem button_ne_modifier (code button : Nat) (h : mapFind MOUSE_BUTTON_KEYS code = some button) :
    button ≠ MOUSE_MODIFIER_KEY := by
  have hall : ∀ p ∈ MOUSE_BUTTON_KEYS, p.2 ≠ MOUSE_MODIFIER_KEY := by decide
  exact hall _ (mem_of_mapFind _ _ _ h)

/-- What the modifier block writes. -/
theorem handleModifier_written {K : Type} (s : Loop K) (e : input_event)
    (htype : e.type = EV_KEY) (hcode : e.code = MOUSE_MODIFIER_KEY) :
    ∃ w, (handleModifier s e).output.written = s.output.written ++ w ∧ ModifierPaired w := by
  have hnone : ∀ s1 : Loop K, s1.output = s.output →
      ∃ w, s1.output.written = s.output.written ++ w ∧ ModifierPaired w :=
    fun s1 h => ⟨[], by rw [h]; simp, ModifierPaired.nil⟩
  unfold handleModifier
  split
  · exact hnone _ rfl
  · split
    · rename_i hrel
      dsimp only
      split
      · exact hnone _ rfl
      · split
        · refine ⟨[{ e with value := KEY_PRESS }, e], by simp [Device.write], ?_⟩
          have hkey : isModifierKey e = true := by simp [isModifierKey, htype, hcode]
          exact ModifierPaired.pair _ e [] (by simpa [isModifierKey] using hkey) rfl hkey hrel
            rfl ModifierPaired.nil
        · exact hnone _ rfl
    · exact hnone _ rfl

/-- What one event writes: events that are not modifier key events, or the
press and release pair of the modifier. -/
theorem processEvent_written {K : Type} (s : Loop K) (e : input_event) :
    ∃ w, (processEvent s e).output.written = s.output.written ++ w ∧ ModifierPaired w := by
  unfold processEvent
  split
  · rename_i htype
    exact ⟨[e], by simp [Device.write],
      modifierPaired_single e (by simp [isModifierKey, htype])⟩
  · rename_i htype
    have htype' : e.type = EV_KEY := not_not.1 htype
    split
    · rename_i hcode
      exact handleModifier_written s e htype' hcode
    · rename_i hcode
      split
      · exact ⟨[e], by simp [Device.write],
          modifierPaired_single e (by simp [isModifierKey, hcode])⟩
      · unfold handleButtonKey
        split
        · rename_i button hbutton
          refine ⟨[{ e with code := button }], ?_, modifierPaired_single _ ?_⟩
          · by_cases hv : e.value = KEY_PRESS <;> simp [hv, Device.write, handleMoveKey_output]
          · simp [isModifierKey, button_ne_modifier e.code button hbutton]
        · exact ⟨[], by simp [handleMoveKey_output], ModifierPaired.nil⟩

theorem foldl_processEvent_written {K : Type} (events : List input_event) :
    ∀ s : Loop K, ∃ w, (events.foldl processEvent s).output.written = s.output.written ++ w ∧
      ModifierPaired w := by
  induction events with
  | nil =>
    intro s
    exact ⟨[], by simp, ModifierPaired.nil⟩
  | cons e events ih =>
    intro s
    obtain ⟨w1, h1, hp1⟩ := processEvent_written s e
    obtain ⟨w2, h2, hp2⟩ := ih (processEvent s e)
    exact ⟨w1 ++ w2, by rw [List.foldl_cons, h2, h1, List.append_assoc],
      modifierPaired_append w1 w2 hp1 hp2⟩

theorem send_rel_written (d : Device) (code : Nat) (value : Int) :
    ∃ w, (d.send_rel code value).written = d.written ++ w ∧ ModifierPaired w := by
  refine ⟨[{ d._last_event with type := EV_REL, code := code, value := value },
    { d._last_event with type := EV_SYN, code := 0, value := 0 }], ?_, ?_⟩
  · simp [Device.send_rel, Device.write]
  · have hne : ¬ EV_REL = EV_KEY ∧ ¬ EV_SYN = EV_KEY := by decide
    exact ModifierPaired.other _ _ (by simp [isModifierKey, hne.1])
      (modifierPaired_single _ (by simp [isModifierKey, hne.2]))

section WrittenFacts

variable {K : Type} [LinearOrderedField K] [FloorRing K]

theorem integrate_written (decay : K) (s s1 : Loop K) (h : integrate decay s = .ok s1) :
    ∃ w, s1.output.written = s.output.written ++ w ∧ ModifierPaired w := by
  have hx : ∀ (d : Device) (code : Nat) (value : Int),
      ∃ w, (if value ≠ 0 then d.send_rel code value else d).written = d.written ++ w ∧
        ModifierPaired w := by
    intro d code value
    split
    · exact send_rel_written d code value
    · exact ⟨[], by simp, ModifierPaired.nil⟩
  unfold integrate at h
  split at h
  · cases h
  · simp only [Except.ok.injEq] at h
    subst h
    dsimp only
    obtain ⟨w1, h1, hp1⟩ := hx s.output REL_X (carry (nextVelocity decay s.vx _) s.px).1
    obtain ⟨w2, h2, hp2⟩ := hx (if (carry (nextVelocity decay s.vx _) s.px).1 ≠ 0 then
      s.output.send_rel REL_X (carry (nextVelocity decay s.vx _) s.px).1 else s.output) REL_Y
      (carry (nextVelocity decay s.vy _) s.py).1
    exact ⟨w1 ++ w2, by rw [h2, h1, List.append_assoc], modifierPaired_append w1 w2 hp1 hp2⟩

/-- A run from a well-formed state goes on, stays well-formed, and writes
modifier key events only in pairs. -/
theorem steps_written (decay : K) (xs : List Step) :
    ∀ s : Loop K, WellFormed s → ∃ s1, steps decay s xs = .ok s1 ∧ WellFormed s1 ∧
      ∃ w, s1.output.written = s.output.written ++ w ∧ ModifierPaired w := by
  induction xs with
  | nil =>
    intro s hwf
    exact ⟨s, rfl, hwf, [], by simp, ModifierPaired.nil⟩
  | cons x xs ih =>
    intro s hwf
    cases x with
    | event e =>
      obtain ⟨w1, h1, hp1⟩ := processEvent_written s e
      obtain ⟨s2, hs2, hwf2, w2, h2, hp2⟩ := ih (processEvent s e) (processEvent_wellFormed s e hwf)
      exact ⟨s2, by simpa [steps, step] using hs2, hwf2, w1 ++ w2,
        by rw [h2, h1, List.append_assoc], modifierPaired_append w1 w2 hp1 hp2⟩
    | endOfTick =>
      obtain ⟨s1, hint, hkeys, -⟩ := integrate_ok decay s hwf
      obtain ⟨w1, h1, hp1⟩ := integrate_written decay s s1 hint
      have hwf1 : WellFormed { s1 with t := s1.t + POLL_INTERVAL } := by
        unfold WellFormed at *
        simpa [hkeys] using hwf
      obtain ⟨s2, hs2, hwf2, w2, h2, hp2⟩ := ih _ hwf1
      refine ⟨s2, by simpa [steps, step, endTick, hint] using hs2, hwf2, w1 ++ w2, ?_,
        modifierPaired_append w1 w2 hp1 hp2⟩
      rw [h2]
      simp only [h1, List.append_assoc]

/-- C16: for every input, whatever its events, the run of the main loop from
its entry state returns and the events it writes to the sink (per-event
writes and the integrator's) hold EV_KEY events of the modifier key only as a
press (value 1) directly followed by a release (value 0) of the same time;
the same holds for the events processed from any loop state. -/
theorem modifier_events_written_in_pairs (decay : K) (output : Device) (now t0 : Int)
    (batches : List (List input_event)) :
    (∃ s, mainLoop decay (Loop.init output now t0) batches = .ok s ∧
      ∃ w, s.output.written = output.written ++ w ∧ ModifierPaired w) ∧
    (∀ (s : Loop K) (events : List input_event),
      ∃ w, (events.foldl processEvent s).output.written = s.output.written ++ w ∧
        ModifierPaired w) := by
  refine ⟨?_, fun s events => foldl_processEvent_written events s⟩
  obtain ⟨s, hs, -, w, hw, hp⟩ := steps_written decay (trace batches)
    (Loop.init output now t0) (wellFormed_init output now t0)
  exact ⟨s, by rw [mainLoop_eq_steps]; exact hs, w, hw, hp⟩

end WrittenFacts

/-! ## Movement flags and mouse mode -/

theorem anyHeld_of_mapAssign_false (m : List (Nat × Bool)) (k : Nat)
    (h : AnyHeld (mapAssign m k false)) : AnyHeld m := by
  obtain ⟨it, hit, htrue⟩ := h
  rcases mem_mapAssign m k false it hit with hm | hm
  · exact ⟨it, hm, htrue⟩
  · rw [hm] at htrue
    exact absurd htrue (by simp)

theorem not_anyHeld_clear (m : List (Nat × Bool)) :
    ¬ AnyHeld (m.map (fun it => (it.1, false))) := by
  rintro ⟨it, hit, htrue⟩
  simp only [List.mem_map] at hit
  obtain ⟨a, _, ha⟩ := hit
  rw [← ha] at htrue
  exact absurd htrue (by simp)

theorem not_anyHeld_iff (m : List (Nat × Bool)) :
    ¬ AnyHeld m ↔ ∀ it ∈ m, it.2 = false := by
  constructor
  · intro h it hit
    cases hb : it.2 with
    | false => rfl
    | true => exact absurd ⟨it, hit, hb⟩ h
  · rintro h ⟨it, hit, htrue⟩
    rw [h it hit] at htrue
    exact absurd htrue (by decide)

theorem handleMoveKey_heldOnly {K : Type} (s : Loop K) (e : input_event)
    (hheld : s.modifier_held = true) (h : HeldOnlyInMouseMode s) :
    HeldOnlyInMouseMode (handleMoveKey s e) := by
  unfold handleMoveKey
  split
  · split
    · exact fun _ => ⟨hheld, rfl⟩
    · split
      · intro hany
        exact h (anyHeld_of_mapAssign_false _ _ hany)
      · exact h
  · exact h

theorem handleButtonKey_heldOnly {K : Type} (s : Loop K) (e : input_event)
    (h : HeldOnlyInMouseMode s) : HeldOnlyInMouseMode (handleButtonKey s e) := by
  unfold handleButtonKey
  split
  · by_cases hv : e.value = KEY_PRESS
    · simp only [hv, if_true]
      exact fun hany => ⟨(h hany).1, rfl⟩
    · simp only [hv, if_false]
      exact h
  · exact h

theorem handleModifier_heldOnly {K : Type} (s : Loop K) (e : input_event)
    (hguard : e.value = KEY_PRESS → s.modifier_held = false) (h : HeldOnlyInMouseMode s) :
    HeldOnlyInMouseMode (handleModifier s e) := by
  unfold handleModifier
  split
  · rename_i hp
    intro hany
    have hfalse := hguard hp
    have := (h hany).1
    rw [hfalse] at this
    exact absurd this (by decide)
  · split
    · dsimp only
      split
      · intro hany
        exact absurd hany (not_anyHeld_clear _)
      · rename_i hused
        have hnone : ¬ AnyHeld s.move_keys_held := fun hany => hused (h hany).2
        split
        · exact fun hany => absurd hany hnone
        · exact fun hany => absurd hany hnone
    · exact h

/-- One event keeps the flags confined to mouse mode, when a modifier press
comes only with the modifier not held. -/
theorem processEvent_heldOnly {K : Type} (s : Loop K) (e : input_event)
    (hguard : isModifierEvent e KEY_PRESS = true → s.modifier_held = false)
    (h : HeldOnlyInMouseMode s) : HeldOnlyInMouseMode (processEvent s e) := by
  unfold processEvent
  split
  · exact h
  · rename_i htype
    have htype' : e.type = EV_KEY := not_not.1 htype
    split
    · rename_i hcode
      apply handleModifier_heldOnly s e _ h
      intro hv
      exact hguard (by simp [isModifierEvent, htype', hcode, hv])
    · split
      · exact h
      · rename_i hheld
        have hheld' : s.modifier_held = true := by simpa using hheld
        exact handleButtonKey_heldOnly _ e (handleMoveKey_heldOnly s e hheld' h)

section IdleFacts

variable {K : Type} [LinearOrderedField K]

/-- With no movement key flagged the loop over move_keys_held adds nothing. -/
theorem acceleration_idle (m : List (Nat × Bool)) (h : ∀ it ∈ m, it.2 = false) (a : K × K) :
    acceleration m a = .ok a := by
  induction m with
  | nil => rfl
  | cons p m ih =>
    have hp : p.2 = false := h p (List.mem_cons_self _ _)
    simp only [acceleration, accelStep, hp, Bool.false_eq_true, if_false]
    exact ih (fun it hit => h it (List.mem_cons_of_mem _ hit))

end IdleFacts

section ModeFacts

variable {K : Type} [LinearOrderedField K] [FloorRing K]

theorem steps_heldOnly (decay : K) (xs : List Step) :
    ∀ s : Loop K, WellFormed s → HeldOnlyInMouseMode s → PressOnlyWhenReleased decay s xs →
      ∃ s1, steps decay s xs = .ok s1 ∧ WellFormed s1 ∧ HeldOnlyInMouseMode s1 := by
  induction xs with
  | nil =>
    intro s hwf h _
    exact ⟨s, rfl, hwf, h⟩
  | cons x xs ih =>
    intro s hwf h hrun
    cases x with
    | event e =>
      obtain ⟨hguard, hrest⟩ := hrun
      obtain ⟨s2, hs2, hrest2⟩ := ih (processEvent s e) (processEvent_wellFormed s e hwf)
        (processEvent_heldOnly s e hguard h) hrest
      exact ⟨s2, by simpa [steps, step] using hs2, hrest2⟩
    | endOfTick =>
      obtain ⟨s1, h1, hkeys, hmod, -, hused, -⟩ := endTick_ok decay s hwf
      simp only [PressOnlyWhenReleased, h1] at hrun
      have hwf1 : WellFormed s1 := by
        unfold WellFormed at *
        rw [hkeys, hwf]
      have hinv1 : HeldOnlyInMouseMode s1 := by
        unfold HeldOnlyInMouseMode at *
        rw [hkeys, hmod, hused]
        exact h
      obtain ⟨s2, hs2, hrest2⟩ := ih s1 hwf1 hinv1 hrun
      exact ⟨s2, by simpa [steps, step, h1] using hs2, hrest2⟩

omit [FloorRing K] in
theorem heldOnly_init (output : Device) (now t0 : Int) :
    HeldOnlyInMouseMode (Loop.init output now t0 : Loop K) := by
  have hidle : ∀ it ∈ move_keys_held_init, it.2 = false := by decide
  intro hany
  exact absurd hany ((not_anyHeld_iff _).2 hidle)

/-- C17: for every input in which a modifier press is processed only while
modifier_held is false, after every event and tick of the run from the entry
state: if an entry of move_keys_held is true then modifier_held and
mouse_used are true; so with the modifier not held every entry is false and
the acceleration of the tick is zero. -/
theorem move_flags_only_in_mouse_mode (decay : K) (output : Device) (now t0 : Int)
    (xs : List Step)
    (hrun : PressOnlyWhenReleased decay (Loop.init output now t0) xs) :
    ∃ s, steps decay (Loop.init output now t0) xs = .ok s ∧
      (AnyHeld s.move_keys_held → s.modifier_held = true ∧ s.mouse_used = true) ∧
      (s.modifier_held = false →
        (∀ it ∈ s.move_keys_held, it.2 = false) ∧
        acceleration s.move_keys_held ((0, 0) : K × K) = .ok (0, 0)) := by
  obtain ⟨s, hs, -, hinv⟩ := steps_heldOnly decay xs (Loop.init output now t0)
    (wellFormed_init output now t0) (heldOnly_init output now t0) hrun
  refine ⟨s, hs, hinv, ?_⟩
  intro hreleased
  have hidle : ∀ it ∈ s.move_keys_held, it.2 = false := by
    rw [← not_anyHeld_iff]
    intro hany
    have := (hinv hany).1
    rw [hreleased] at this
    exact absurd this (by decide)
  exact ⟨hidle, acceleration_idle _ hidle _⟩

end ModeFacts

theorem move_flags_only_in_mouse_mode_witness :
    ∃ s, steps (1 / 2 : ℚ) sampleStart
        [Step.event (sampleEvent EV_KEY KEY_TAB 1), Step.event (sampleEvent EV_KEY KEY_T 1),
          Step.event (sampleEvent EV_KEY KEY_TAB 0)] = .ok s ∧
      (AnyHeld s.move_keys_held → s.modifier_held = true ∧ s.mouse_used = true) ∧
      (s.modifier_held = false →
        (∀ it ∈ s.move_keys_held, it.2 = false) ∧
        acceleration s.move_keys_held ((0, 0) : ℚ × ℚ) = .ok (0, 0)) :=
  move_flags_only_in_mouse_mode (1 / 2 : ℚ) sampleSink 0 0
    [Step.event (sampleEvent EV_KEY KEY_TAB 1), Step.event (sampleEvent EV_KEY KEY_T 1),
      Step.event (sampleEvent EV_KEY KEY_TAB 0)]
    ⟨fun _ => rfl, fun h => absurd h (by decide), fun h => absurd h (by decide), trivial⟩

/-! ## A button left pressed -/

/-- C18: for the input modifier press, KEY_ENTER press, modifier release,
KEY_ENTER release, processed from the entry state, the sink receives the
BTN_LEFT press and then the KEY_ENTER release and nothing else: no BTN_LEFT
release follows the BTN_LEFT press, and no KEY_ENTER press precedes the
KEY_ENTER release. -/
theorem button_left_pressed_across_modifier_release :
    (sampleClickAcrossRelease.foldl processEvent sampleStart).output.written =
      [sampleEvent EV_KEY BTN_LEFT 1, sampleEvent EV_KEY KEY_ENTER 0] ∧
    (∀ e ∈ (sampleClickAcrossRelease.foldl processEvent sampleStart).output.written,
      ¬ (e.code = BTN_LEFT ∧ e.value = KEY_RELEASE)) ∧
    (∀ e ∈ (sampleClickAcrossRelease.foldl processEvent sampleStart).output.written,
      ¬ (e.code = KEY_ENTER ∧ e.value = KEY_PRESS)) ∧
    (∀ e ∈ sampleClickAcrossRelease, e.value = KEY_PRESS →
      { e with value := KEY_RELEASE } ∈ sampleClickAcrossRelease) := by
  have h : (sampleClickAcrossRelease.foldl processEvent sampleStart).output.written =
      [sampleEvent EV_KEY BTN_LEFT 1, sampleEvent EV_KEY KEY_ENTER 0] := by decide
  rw [h]
  exact ⟨rfl, by decide, by decide, by decide⟩

/-! ## The key set of move_keys_held -/

section KeySetFacts

variable {K : Type} [LinearOrderedField K] [FloorRing K]

/-- C20: for every input, after every event and tick of the run from the entry
state the keys of move_keys_held are the keys of MOUSE_MOVE_KEYS (the twelve
movement keys): each event leaves the key set as it is; so the lookup
MOUSE_MOVE_KEYS.at finds the key of every entry, the acceleration loop and
the integrator return, and no run of the main loop ends in the error. -/
theorem move_keys_held_key_set_fixed (decay : K) (output : Device) (now t0 : Int)
    (xs : List Step) :
    (∃ s, steps decay (Loop.init output now t0) xs = .ok s ∧
      mapKeys s.move_keys_held = mapKeys MOUSE_MOVE_KEYS ∧
      mapKeys s.move_keys_held = [18, 20, 31, 32, 35, 46, 49, 51, 103, 105, 106, 108] ∧
      (∀ it ∈ s.move_keys_held, ∃ da, mapFind MOUSE_MOVE_KEYS it.1 = some da) ∧
      (∃ a, acceleration s.move_keys_held ((0, 0) : K × K) = .ok a) ∧
      (∃ s1, integrate decay s = .ok s1)) ∧
    (∀ (s : Loop K) (e : input_event),
      mapKeys (processEvent s e).move_keys_held = mapKeys s.move_keys_held) ∧
    (∀ batches : List (List input_event),
      ∃ s, mainLoop decay (Loop.init output now t0) batches = .ok s) := by
  refine ⟨?_, fun s e => (processEvent_frame s e).1, ?_⟩
  · obtain ⟨s, hs, hwf, -⟩ := steps_written decay xs (Loop.init output now t0)
      (wellFormed_init output now t0)
    refine ⟨s, hs, hwf, by rw [hwf, mapKeys_MOUSE_MOVE_KEYS], ?_, ?_, ?_⟩
    · intro it hit
      have hmem : it.1 ∈ mapKeys MOUSE_MOVE_KEYS := by
        rw [← hwf]
        exact List.mem_map_of_mem Prod.fst hit
      exact Option.isSome_iff_exists.1 ((mapFind_isSome_iff _ _).2 hmem)
    · exact acceleration_ok _ _ (fun k hk => by rw [← hwf]; exact hk)
    · obtain ⟨s1, h1, -⟩ := integrate_ok decay s hwf
      exact ⟨s1, h1⟩
  · intro batches
    obtain ⟨s, hs, -⟩ := steps_written decay (trace batches) (Loop.init output now t0)
      (wellFormed_init output now t0)
    exact ⟨s, by rw [mainLoop_eq_steps]; exact hs⟩

end KeySetFacts

/-! ## Bounds of velocity and displacement -/

theorem reachOf_move_keys :
    reachOf (fun da => da.1) (mapKeys MOUSE_MOVE_KEYS) = 23000 ∧
    reachOf (fun da => -da.1) (mapKeys MOUSE_MOVE_KEYS) = 23000 ∧
    reachOf (fun da => da.2) (mapKeys MOUSE_MOVE_KEYS) = 23000 ∧
    reachOf (fun da => -da.2) (mapKeys MOUSE_MOVE_KEYS) = 23000 := by
  decide

theorem processEvent_motion {K : Type} (s : Loop K) (e : input_event) :
    (processEvent s e).vx = s.vx ∧ (processEvent s e).vy = s.vy ∧
    (processEvent s e).px = s.px ∧ (processEvent s e).py = s.py := by
  have hb : ∀ s1 : Loop K, (handleButtonKey s1 e).vx = s1.vx ∧ (handleButtonKey s1 e).vy = s1.vy ∧
      (handleButtonKey s1 e).px = s1.px ∧ (handleButtonKey s1 e).py = s1.py := by
    intro s1
    unfold handleButtonKey
    split
    · by_cases hv : e.value = KEY_PRESS <;> simp [hv]
    · exact ⟨rfl, rfl, rfl, rfl⟩
  unfold processEvent
  split
  · exact ⟨rfl, rfl, rfl, rfl⟩
  · split
    · unfold handleModifier
      split
      · exact ⟨rfl, rfl, rfl, rfl⟩
      · split
        · dsimp only
          split
          · exact ⟨rfl, rfl, rfl, rfl⟩
          · split <;> exact ⟨rfl, rfl, rfl, rfl⟩
        · exact ⟨rfl, rfl, rfl, rfl⟩
    · split
      · exact ⟨rfl, rfl, rfl, rfl⟩
      · have h1 := handleMoveKey_velocity s e
        have h2 := hb (handleMoveKey s e)
        exact ⟨by rw [h2.1, h1.1], by rw [h2.2.1, h1.2.1], by rw [h2.2.2.1, h1.2.2.1],
          by rw [h2.2.2.2, h1.2.2.2]⟩

theorem foldl_processEvent_motion {K : Type} (events : List input_event) :
    ∀ s : Loop K, WellFormed s →
      WellFormed (events.foldl processEvent s) ∧
      (events.foldl processEvent s).vx = s.vx ∧ (events.foldl processEvent s).vy = s.vy ∧
      (events.foldl processEvent s).px = s.px ∧ (events.foldl processEvent s).py = s.py := by
  induction events with
  | nil =>
    intro s hwf
    exact ⟨hwf, rfl, rfl, rfl, rfl⟩
  | cons e events ih =>
    intro s hwf
    have h1 := processEvent_motion s e
    obtain ⟨hwf2, hx, hy, hpx, hpy⟩ := ih (processEvent s e) (processEvent_wellFormed s e hwf)
    exact ⟨hwf2, by rw [List.foldl_cons, hx, h1.1], by rw [List.foldl_cons, hy, h1.2.1],
      by rw [List.foldl_cons, hpx, h1.2.2.1], by rw [List.foldl_cons, hpy, h1.2.2.2]⟩

section BoundFacts

variable {K : Type} [LinearOrderedField K]

theorem DT_pos : (0 : K) < DT := by
  simp only [DT, POLL_RATE]
  norm_num

/-- The magnitude of the result of `_apply_drag`. -/
theorem apply_drag_abs (v dv : K) (hdv : 0 ≤ dv) : |_apply_drag v dv| = max (|v| - dv) 0 := by
  have h := nextVelocity_unheld 1 v v dv hdv (mul_self_nonneg v) zero_le_one
  rw [add_zero, mul_one, mul_one] at h
  exact h.1

/-- The acceleration of a tick lies within the reach of the keys of the map. -/
theorem acceleration_bounds (m : List (Nat × Bool))
    (h : ∀ k ∈ mapKeys m, k ∈ mapKeys MOUSE_MOVE_KEYS) :
    ∀ a : K × K, ∃ a1, acceleration m a = .ok a1 ∧
      a1.1 ≤ a.1 + (reachOf (fun da => da.1) (mapKeys m) : K) * DT ∧
      a.1 - (reachOf (fun da => -da.1) (mapKeys m) : K) * DT ≤ a1.1 ∧
      a1.2 ≤ a.2 + (reachOf (fun da => da.2) (mapKeys m) : K) * DT ∧
      a.2 - (reachOf (fun da => -da.2) (mapKeys m) : K) * DT ≤ a1.2 := by
  have hdt : (0 : K) < DT := DT_pos
  induction m with
  | nil =>
    intro a
    exact ⟨a, rfl, by simp [mapKeys, reachOf], by simp [mapKeys, reachOf],
      by simp [mapKeys, reachOf], by simp [mapKeys, reachOf]⟩
  | cons p m ih =>
    obtain ⟨k, b⟩ := p
    intro a
    have hk : k ∈ mapKeys MOUSE_MOVE_KEYS := h k (by simp [mapKeys])
    obtain ⟨da, hda⟩ := Option.isSome_iff_exists.1 ((mapFind_isSome_iff _ _).2 hk)
    have hrest : ∀ k' ∈ mapKeys m, k' ∈ mapKeys MOUSE_MOVE_KEYS := fun k' hk' =>
      h k' (by simp only [mapKeys, List.map_cons, List.mem_cons]; exact Or.inr hk')
    have hreach : ∀ sel : Int × Int → Int,
        ((reachOf sel (mapKeys ((k, b) :: m)) : Int) : K) =
          max ((sel da : Int) : K) 0 + ((reachOf sel (mapKeys m) : Int) : K) := by
      intro sel
      simp only [mapKeys, List.map_cons, reachOf, hda]
      push_cast
      rfl
    have hmax : ∀ x : K, x ≤ max x 0 ∧ 0 ≤ max x 0 :=
      fun x => ⟨le_max_left _ _, le_max_right _ _⟩
    cases b with
    | true =>
      obtain ⟨a1, h1, hx1, hx2, hy1, hy2⟩ :=
        ih hrest (a.1 + (da.1 : K) * DT, a.2 + (da.2 : K) * DT)
      refine ⟨a1, by simp [acceleration, accelStep, hda, h1], ?_, ?_, ?_, ?_⟩
      · rw [hreach]
        have := mul_le_mul_of_nonneg_right (hmax ((da.1 : Int) : K)).1 hdt.le
        dsimp only at hx1
        linarith
      · rw [hreach]
        have := mul_le_mul_of_nonneg_right (hmax (((-da.1 : Int)) : K)).1 hdt.le
        push_cast at this ⊢
        dsimp only at hx2
        linarith
      · rw [hreach]
        have := mul_le_mul_of_nonneg_right (hmax ((da.2 : Int) : K)).1 hdt.le
        dsimp only at hy1
        linarith
      · rw [hreach]
        have := mul_le_mul_of_nonneg_right (hmax (((-da.2 : Int)) : K)).1 hdt.le
        push_cast at this ⊢
        dsimp only at hy2
        linarith
    | false =>
      obtain ⟨a1, h1, hx1, hx2, hy1, hy2⟩ := ih hrest a
      refine ⟨a1, by simp [acceleration, accelStep, h1], ?_, ?_, ?_, ?_⟩
      · rw [hreach]
        have := mul_nonneg (hmax ((da.1 : Int) : K)).2 hdt.le
        linarith
      · rw [hreach]
        have := mul_nonneg (hmax (((-da.1 : Int)) : K)).2 hdt.le
        push_cast at this ⊢
        linarith
      · rw [hreach]
        have := mul_nonneg (hmax ((da.2 : Int) : K)).2 hdt.le
        linarith
      · rw [hreach]
        have := mul_nonneg (hmax (((-da.2 : Int)) : K)).2 hdt.le
        push_cast at this ⊢
        linarith

end BoundFacts

section LimitFacts

variable {K : Type} [LinearOrderedField K]

theorem motion_constants :
    (maxAcceleration : K) = 460 ∧ (MOUSE_MOVE_DRAG * DT : K) = 40 ∧ (DT : K) = 1 / 50 := by
  simp only [maxAcceleration, MOUSE_MOVE_DRAG, DT, POLL_RATE]
  norm_num

/-- A decay factor that halves the velocity within ten ticks is below 100 / 107. -/
theorem decay_lt_of_half_life (decay : K) (hd : decay ^ 10 ≤ 1 / 2) :
    decay < 100 / 107 := by
  by_contra hc
  have h1 : (100 / 107 : K) ^ 10 ≤ decay ^ 10 :=
    pow_le_pow_left₀ (by norm_num) (not_lt.1 hc) 10
  have h2 : (1 / 2 : K) < (100 / 107) ^ 10 := by norm_num
  linarith

theorem speedLimit_facts (decay : K) (hd0 : 0 < decay) (hd : decay < 100 / 107) :
    speedLimit decay = decay * 420 / (1 - decay) ∧ 0 ≤ speedLimit decay ∧
    speedLimit decay < 6000 ∧ (speedLimit decay + 420) * decay = speedLimit decay := by
  have h1 : (0 : K) < 1 - decay := by linarith
  have heq : speedLimit decay = decay * 420 / (1 - decay) := by
    rw [speedLimit, motion_constants.1, motion_constants.2.1]
    norm_num
  refine ⟨heq, ?_, ?_, ?_⟩
  · rw [heq]
    exact div_nonneg (by linarith) h1.le
  · rw [heq, div_lt_iff₀ h1]
    linarith
  · rw [heq]
    field_simp
    ring

/-- One tick keeps the speed of an axis within the speed limit. -/
theorem nextVelocity_le_speedLimit (decay v a : K) (hd0 : 0 < decay) (hd : decay < 100 / 107)
    (hv : |v| ≤ speedLimit decay) (ha : |a| ≤ maxAcceleration) :
    |nextVelocity decay v a| ≤ speedLimit decay := by
  obtain ⟨-, hL0, -, hfix⟩ := speedLimit_facts decay hd0 hd
  have hdv : (0 : K) ≤ MOUSE_MOVE_DRAG * DT := by
    rw [motion_constants.2.1]
    norm_num
  rw [nextVelocity, abs_mul, apply_drag_abs _ _ hdv, abs_of_pos hd0, motion_constants.2.1]
  rw [motion_constants.1] at ha
  have hsum : |v + a| ≤ |v| + |a| := abs_add v a
  have hmax : max (|v + a| - 40) 0 ≤ speedLimit decay + 420 :=
    max_le (by linarith) (by linarith)
  calc max (|v + a| - 40) 0 * decay ≤ (speedLimit decay + 420) * decay :=
        mul_le_mul_of_nonneg_right hmax hd0.le
    _ = speedLimit decay := hfix

end LimitFacts

section RangeFacts

variable {K : Type} [LinearOrderedField K] [FloorRing K]

theorem truncToInt_abs_le (x : K) : |((truncToInt x : Int) : K)| ≤ |x| := by
  unfold truncToInt
  split
  · rename_i hx
    have h0 : (0 : Int) ≤ ⌊x⌋ := Int.floor_nonneg.2 hx
    have h0' : (0 : K) ≤ ((⌊x⌋ : Int) : K) := by exact_mod_cast h0
    rw [abs_of_nonneg h0', abs_of_nonneg hx]
    exact Int.floor_le x
  · rename_i hx
    have hx' : x ≤ 0 := (not_le.1 hx).le
    have h0 : ⌈x⌉ ≤ (0 : Int) := Int.ceil_le.2 (by simpa using hx')
    have h0' : ((⌈x⌉ : Int) : K) ≤ 0 := by exact_mod_cast h0
    rw [abs_of_nonpos h0', abs_of_nonpos hx']
    have := Int.le_ceil x
    linarith

/-- A displacement below 121 truncates to a value of a 32-bit int. -/
theorem truncToInt_in_range (x : K) (h : |x| < 121) :
    INT_MIN ≤ truncToInt x ∧ truncToInt x ≤ INT_MAX := by
  have h1 : |((truncToInt x : Int) : K)| < 121 := lt_of_le_of_lt (truncToInt_abs_le x) h
  have h2 : ((|truncToInt x| : Int) : K) < ((121 : Int) : K) := by
    rw [Int.cast_abs]
    simpa using h1
  have h3 : |truncToInt x| < 121 := Int.cast_lt.1 h2
  rw [abs_lt] at h3
  simp only [INT_MIN, INT_MAX]
  omega

/-- The integrator, spelled out over a well-formed state. -/
theorem integrate_spelled (decay : K) (s : Loop K) (hwf : WellFormed s) :
    ∃ (s1 : Loop K) (a : K × K), integrate decay s = .ok s1 ∧ |a.1| ≤ maxAcceleration ∧ |a.2| ≤ maxAcceleration ∧
      s1.move_keys_held = s.move_keys_held ∧
      s1.vx = nextVelocity decay s.vx a.1 ∧ s1.vy = nextVelocity decay s.vy a.2 ∧
      s1.px = (carry s1.vx s.px).2 ∧ s1.py = (carry s1.vy s.py).2 := by
  obtain ⟨a, ha, hx1, hx2, hy1, hy2⟩ := acceleration_bounds (K := K) s.move_keys_held
    (fun k hk => by rw [← hwf]; exact hk) (0, 0)
  have hkeys : mapKeys s.move_keys_held = mapKeys MOUSE_MOVE_KEYS := hwf
  rw [hkeys, reachOf_move_keys.1] at hx1
  rw [hkeys, reachOf_move_keys.2.1] at hx2
  rw [hkeys, reachOf_move_keys.2.2.1] at hy1
  rw [hkeys, reachOf_move_keys.2.2.2] at hy2
  have hmax : (maxAcceleration : K) = ((23000 : Int) : K) * DT := by
    simp only [maxAcceleration]
    norm_num
  have hint : ∃ s1 : Loop K, integrate decay s = .ok s1 ∧
      s1.move_keys_held = s.move_keys_held ∧
      s1.vx = nextVelocity decay s.vx a.1 ∧ s1.vy = nextVelocity decay s.vy a.2 ∧
      s1.px = (carry s1.vx s.px).2 ∧ s1.py = (carry s1.vy s.py).2 := by
    unfold integrate
    rw [ha]
    exact ⟨_, rfl, rfl, rfl, rfl, rfl, rfl⟩
  obtain ⟨s1, h1, hrest⟩ := hint
  simp only [zero_add, zero_sub] at hx1 hx2 hy1 hy2
  refine ⟨s1, a, h1, ?_, ?_, hrest⟩
  · rw [abs_le, hmax]
    constructor <;> linarith
  · rw [abs_le, hmax]
    constructor <;> linarith

end RangeFacts

section LimitRuns

variable {K : Type} [LinearOrderedField K] [FloorRing K]

omit [FloorRing K] in
/-- Within the speed limit and with a fraction carried, the displacement of a
tick is below 121. -/
theorem displacement_lt (decay v p : K) (hd0 : 0 < decay) (hd : decay < 100 / 107)
    (hv : |v| ≤ speedLimit decay) (hp : |p| < 1) : |v * DT + p| < 121 := by
  obtain ⟨-, -, hL, -⟩ := speedLimit_facts decay hd0 hd
  have hdt : (DT : K) = 1 / 50 := motion_constants.2.2
  have h1 : |v * DT + p| ≤ |v * DT| + |p| := abs_add _ _
  have h2 : |v * DT| = |v| * (1 / 50) := by
    rw [abs_mul, hdt, abs_of_pos (by norm_num : (0 : K) < 1 / 50)]
  rw [h2] at h1
  linarith

/-- One loop iteration keeps the limits, whatever the events. -/
theorem tick_limits (decay : K) (hd0 : 0 < decay) (hd : decay < 100 / 107) (s : Loop K)
    (h : WithinLimits decay s) (events : List input_event) :
    ∃ s1, tick decay s events = .ok s1 ∧ WithinLimits decay s1 ∧
      |s1.vx * DT + s.px| < 121 ∧ |s1.vy * DT + s.py| < 121 := by
  obtain ⟨hwf, hvx, hvy, hpx, hpy⟩ := h
  obtain ⟨hwf', hx, hy, hpx', hpy'⟩ := foldl_processEvent_motion events s hwf
  obtain ⟨s1, a, hint, hax, hay, hkeys, h1x, h1y, h1px, h1py⟩ :=
    integrate_spelled decay (events.foldl processEvent s) hwf'
  rw [hx] at h1x
  rw [hy] at h1y
  rw [hpx'] at h1px
  rw [hpy'] at h1py
  have hvx1 : |s1.vx| ≤ speedLimit decay := by
    rw [h1x]
    exact nextVelocity_le_speedLimit decay s.vx a.1 hd0 hd hvx hax
  have hvy1 : |s1.vy| ≤ speedLimit decay := by
    rw [h1y]
    exact nextVelocity_le_speedLimit decay s.vy a.2 hd0 hd hvy hay
  refine ⟨{ s1 with t := s1.t + POLL_INTERVAL }, by simp only [tick, endTick, hint],
    ⟨?_, hvx1, hvy1, ?_, ?_⟩, displacement_lt decay s1.vx s.px hd0 hd hvx1 hpx,
    displacement_lt decay s1.vy s.py hd0 hd hvy1 hpy⟩
  · unfold WellFormed at *
    simpa [hkeys] using hwf'
  · show |s1.px| < 1
    rw [h1px]
    exact truncToInt_remainder _
  · show |s1.py| < 1
    rw [h1py]
    exact truncToInt_remainder _

theorem mainLoop_limits (decay : K) (hd0 : 0 < decay) (hd : decay < 100 / 107)
    (batches : List (List input_event)) :
    ∀ s : Loop K, WithinLimits decay s →
      ∃ s1, mainLoop decay s batches = .ok s1 ∧ WithinLimits decay s1 := by
  induction batches with
  | nil =>
    intro s h
    exact ⟨s, rfl, h⟩
  | cons b rest ih =>
    intro s h
    obtain ⟨s1, h1, hlim, -⟩ := tick_limits decay hd0 hd s h b
    obtain ⟨s2, h2, hlim2⟩ := ih s1 hlim
    exact ⟨s2, by simp only [mainLoop, h1, h2], hlim2⟩

omit [FloorRing K] in
theorem withinLimits_init (decay : K) (hd0 : 0 < decay) (hd : decay < 100 / 107)
    (output : Device) (now t0 : Int) : WithinLimits decay (Loop.init output now t0 : Loop K) := by
  obtain ⟨-, hL0, -, -⟩ := speedLimit_facts decay hd0 hd
  refine ⟨wellFormed_init output now t0, ?_, ?_, ?_, ?_⟩ <;> simp [Loop.init, hL0]

/-- C19: in exact arithmetic, with a decay factor that halves a velocity within
ten ticks (0.5 ^ (DT / 0.2) does so exactly), for every input and after every
tick of the run from the entry state (velocity 0, fractional position 0) the
velocity of each axis is at most decay * 420 / (1 - decay) in magnitude, which
is below 6000; so the displacement of every tick is below 121 in magnitude and
its truncation is a value of a 32-bit int. -/
theorem velocity_below_6000 (decay : K) (hd0 : 0 < decay) (hd : decay ^ 10 ≤ 1 / 2)
    (output : Device) (now t0 : Int) (batches : List (List input_event)) :
    speedLimit decay = decay * 420 / (1 - decay) ∧ speedLimit decay < 6000 ∧
    ∃ s, mainLoop decay (Loop.init output now t0) batches = .ok s ∧
      |s.vx| ≤ speedLimit decay ∧ |s.vy| ≤ speedLimit decay ∧ |s.vx| < 6000 ∧ |s.vy| < 6000 ∧
      ∀ events, ∃ s1, tick decay s events = .ok s1 ∧
        |s1.vx| < 6000 ∧ |s1.vy| < 6000 ∧
        |s1.vx * DT + s.px| < 121 ∧ |s1.vy * DT + s.py| < 121 ∧
        (carry s1.vx s.px).1 = truncToInt (s1.vx * DT + s.px) ∧
        (carry s1.vy s.py).1 = truncToInt (s1.vy * DT + s.py) ∧
        INT_MIN ≤ (carry s1.vx s.px).1 ∧ (carry s1.vx s.px).1 ≤ INT_MAX ∧
        INT_MIN ≤ (carry s1.vy s.py).1 ∧ (carry s1.vy s.py).1 ≤ INT_MAX := by
  have hd' := decay_lt_of_half_life decay hd
  obtain ⟨heq, -, hL, -⟩ := speedLimit_facts decay hd0 hd'
  refine ⟨heq, hL, ?_⟩
  obtain ⟨s, hs, hlim⟩ := mainLoop_limits decay hd0 hd' batches (Loop.init output now t0)
    (withinLimits_init decay hd0 hd' output now t0)
  refine ⟨s, hs, hlim.2.1, hlim.2.2.1, lt_of_le_of_lt hlim.2.1 hL,
    lt_of_le_of_lt hlim.2.2.1 hL, ?_⟩
  intro events
  obtain ⟨s1, h1, hlim1, hdx, hdy⟩ := tick_limits decay hd0 hd' s hlim events
  have hrx := truncToInt_in_range (s1.vx * DT + s.px) hdx
  have hry := truncToInt_in_range (s1.vy * DT + s.py) hdy
  exact ⟨s1, h1, lt_of_le_of_lt hlim1.2.1 hL, lt_of_le_of_lt hlim1.2.2.1 hL, hdx, hdy,
    rfl, rfl, hrx.1, hrx.2, hry.1, hry.2⟩

end LimitRuns

theorem velocity_below_6000_witness :
    speedLimit (1 / 2 : ℚ) = (1 / 2) * 420 / (1 - 1 / 2) ∧ speedLimit (1 / 2 : ℚ) < 6000 ∧
    ∃ s, mainLoop (1 / 2 : ℚ) (Loop.init sampleSink 0 0)
        [[sampleEvent EV_KEY KEY_TAB 1, sampleEvent EV_KEY KEY_T 1], []] = .ok s ∧
      |s.vx| ≤ speedLimit (1 / 2 : ℚ) ∧ |s.vy| ≤ speedLimit (1 / 2 : ℚ) ∧
      |s.vx| < 6000 ∧ |s.vy| < 6000 ∧
      ∀ events, ∃ s1, tick (1 / 2 : ℚ) s events = .ok s1 ∧
        |s1.vx| < 6000 ∧ |s1.vy| < 6000 ∧
        |s1.vx * DT + s.px| < 121 ∧ |s1.vy * DT + s.py| < 121 ∧
        (carry s1.vx s.px).1 = truncToInt (s1.vx * DT + s.px) ∧
        (carry s1.vy s.py).1 = truncToInt (s1.vy * DT + s.py) ∧
        INT_MIN ≤ (carry s1.vx s.px).1 ∧ (carry s1.vx s.px).1 ≤ INT_MAX ∧
        INT_MIN ≤ (carry s1.vy s.py).1 ∧ (carry s1.vy s.py).1 ≤ INT_MAX :=
  velocity_below_6000 (1 / 2 : ℚ) (by norm_num) (by norm_num) sampleSink 0 0
    [[sampleEvent EV_KEY KEY_TAB 1, sampleEvent EV_KEY KEY_T 1], []]

end KeyboardMouse
